import Mathlib

/-!
Verification of the resume text pipeline of this repository
(file `src/server/src/services/analysis_service.py`).

Texts are modelled as `String` / `List Char`.  Each Python regex
substitution used by the source is embedded as a direct recursive scan
with the same leftmost, non-overlapping, greedy semantics as the
concrete pattern (all the patterns involved are backtracking-free, so
the scans are exact).  Python `str.lower`/`str.upper` are modelled by
`Char.toLower`/`Char.toUpper`, which agree with Python on ASCII text
(all header phrases and all concrete inputs below are ASCII).  Scores
that Python computes with floats (`round(x, 1)` on exact small
fractions) are modelled with exact rationals and round-half-to-even,
which agrees with Python wherever the scaled value is exactly
representable; all concrete score values below are exact.
-/

namespace ResumePipeline

/-- Python whitespace (the set matched by `\s` in `re` and stripped by
`str.strip()`): ASCII whitespace, the C1 separators, NEL, NBSP and the
Unicode space separators. -/
def isPySpace (c : Char) : Bool :=
  c = ' ' || c = '\t' || c = '\n' || c = '\r' ||
  c = Char.ofNat 0x0b || c = Char.ofNat 0x0c ||
  (0x1c ≤ c.toNat && c.toNat ≤ 0x1f) ||
  c.toNat = 0x85 || c.toNat = 0xa0 || c.toNat = 0x1680 ||
  (0x2000 ≤ c.toNat && c.toNat ≤ 0x200a) ||
  c.toNat = 0x2028 || c.toNat = 0x2029 ||
  c.toNat = 0x202f || c.toNat = 0x205f || c.toNat = 0x3000

/-- Remove trailing characters satisfying `p`. -/
def dropTrailing (p : Char → Bool) (l : List Char) : List Char :=
  (l.reverse.dropWhile p).reverse

/-- Python `str.strip()`: drop leading and trailing whitespace. -/
def stripBoth (l : List Char) : List Char :=
  dropTrailing isPySpace (l.dropWhile isPySpace)

/-- Python `text.split("\n")`: split on every newline, keeping empty
pieces (the result is always non-empty). -/
def splitNl : List Char → List (List Char)
  | [] => [[]]
  | c :: cs =>
    if c = '\n' then [] :: splitNl cs
    else
      match splitNl cs with
      | [] => [[c]]
      | l :: ls => (c :: l) :: ls

/-- Python `"\n".join(...)`. -/
def joinNl : List (List Char) → List Char
  | [] => []
  | [l] => l
  | l :: ls => l ++ '\n' :: joinNl ls

/-- Does `pat` occur at the head of `l`? -/
def startsWithL : List Char → List Char → Bool
  | [], _ => true
  | _ :: _, [] => false
  | p :: ps, c :: cs => p = c && startsWithL ps cs

/-- Python `pat in l`: does `pat` occur contiguously anywhere in `l`? -/
def occursIn (pat : List Char) : List Char → Bool
  | [] => startsWithL pat []
  | c :: cs => startsWithL pat (c :: cs) || occursIn pat cs

theorem length_dropWhile_le {α : Type} (p : α → Bool) (l : List α) :
    (l.dropWhile p).length ≤ l.length := by
  induction l with
  | nil => simp [List.dropWhile]
  | cons c cs ih =>
    simp only [List.dropWhile]
    by_cases h : p c
    · simp only [h]
      exact Nat.le_trans ih (Nat.le_succ _)
    · simp [h]

/-- Scanner for Python `str.split()`.  Every step consumes at least one
character, so with `fuel = l.length` the fuel never runs out; fuel
recursion keeps the definition kernel-reducible. -/
def pySplitWsGo : Nat → List Char → List (List Char)
  | 0, _ => []
  | _ + 1, [] => []
  | fuel + 1, c :: cs =>
    if isPySpace c then pySplitWsGo fuel cs
    else (c :: cs.takeWhile (fun d => !isPySpace d)) ::
      pySplitWsGo fuel (cs.dropWhile (fun d => !isPySpace d))

/-- Python `str.split()` (no separator): split on whitespace runs,
dropping empty tokens. -/
def pySplitWs (l : List Char) : List (List Char) :=
  pySplitWsGo l.length l

-- ------------------------------------------------------------------
-- basic lemmas about the utilities
-- ------------------------------------------------------------------

theorem splitNl_ne_nil (l : List Char) : splitNl l ≠ [] := by
  induction l with
  | nil => simp [splitNl]
  | cons c cs ih =>
    simp only [splitNl]
    by_cases h : c = '\n'
    · simp [h]
    · simp only [h, if_false]
      cases hs : splitNl cs with
      | nil => simp
      | cons l ls => simp

theorem splitNl_no_newline (l : List Char) :
    ∀ p ∈ splitNl l, '\n' ∉ p := by
  induction l with
  | nil =>
    intro p hp
    simp [splitNl] at hp
    simp [hp]
  | cons c cs ih =>
    intro p hp
    by_cases h : c = '\n'
    · subst h
      simp only [splitNl, if_pos rfl] at hp
      rcases List.mem_cons.mp hp with hp1 | hp1
      · simp [hp1]
      · exact ih p hp1
    · simp only [splitNl, h, if_false] at hp
      cases hs : splitNl cs with
      | nil => exact absurd hs (splitNl_ne_nil cs)
      | cons q qs =>
        rw [hs] at hp
        rcases List.mem_cons.mp hp with hp1 | hp1
        · subst hp1
          intro hmem
          rcases List.mem_cons.mp hmem with h1 | h1
          · exact h h1.symm
          · exact ih q (hs ▸ List.mem_cons_self q qs) h1
        · exact ih p (hs ▸ List.mem_cons_of_mem q hp1)

theorem splitNl_no_nl_piece : ∀ (p : List Char), '\n' ∉ p →
    splitNl p = [p]
  | [], _ => by simp [splitNl]
  | c :: cs, hp => by
    have hc : c ≠ '\n' := fun hc => hp (hc ▸ List.mem_cons_self c cs)
    have hcs : '\n' ∉ cs := fun hm => hp (List.mem_cons_of_mem c hm)
    have ih := splitNl_no_nl_piece cs hcs
    simp only [splitNl, hc, if_false]
    rw [ih]

theorem splitNl_piece_newline : ∀ (p rest : List Char), '\n' ∉ p →
    splitNl (p ++ '\n' :: rest) = p :: splitNl rest
  | [], rest, _ => by simp [splitNl]
  | c :: cs, rest, hp => by
    have hc : c ≠ '\n' := fun hc => hp (hc ▸ List.mem_cons_self c cs)
    have hcs : '\n' ∉ cs := fun hm => hp (List.mem_cons_of_mem c hm)
    have ih := splitNl_piece_newline cs rest hcs
    show splitNl (c :: (cs ++ '\n' :: rest)) = (c :: cs) :: splitNl rest
    simp only [splitNl, hc, if_false]
    rw [ih]

theorem splitNl_join (l : List (List Char)) (hl : l ≠ [])
    (hnl : ∀ p ∈ l, '\n' ∉ p) : splitNl (joinNl l) = l := by
  induction l with
  | nil => exact absurd rfl hl
  | cons p ps ih =>
    cases ps with
    | nil =>
      exact splitNl_no_nl_piece p (hnl p (by simp))
    | cons q qs =>
      have hjoin : joinNl (p :: q :: qs) = p ++ '\n' :: joinNl (q :: qs) := rfl
      rw [hjoin, splitNl_piece_newline p _ (hnl p (List.mem_cons_self p (q :: qs))),
        ih (by simp) (fun r hr => hnl r (List.mem_cons_of_mem p hr))]

theorem joinNl_split (l : List Char) : joinNl (splitNl l) = l := by
  induction l with
  | nil => simp [splitNl, joinNl]
  | cons c cs ih =>
    simp only [splitNl]
    by_cases h : c = '\n'
    · subst h
      cases hs : splitNl cs with
      | nil => exact absurd hs (splitNl_ne_nil cs)
      | cons q qs =>
        simp only [if_true]
        show [] ++ '\n' :: joinNl (q :: qs) = '\n' :: cs
        rw [List.nil_append, ← hs, ih]
    · simp only [h, if_false]
      cases hs : splitNl cs with
      | nil => exact absurd hs (splitNl_ne_nil cs)
      | cons q qs =>
        cases qs with
        | nil =>
          show c :: q = c :: cs
          have h2 : joinNl (splitNl cs) = cs := ih
          rw [hs] at h2
          simpa [joinNl] using h2
        | cons r rs =>
          show (c :: q) ++ '\n' :: joinNl (r :: rs) = c :: cs
          have h2 : joinNl (splitNl cs) = cs := ih
          rw [hs] at h2
          have hq : q ++ '\n' :: joinNl (r :: rs) = cs := h2
          simp [← hq]

theorem dropWhile_idem (p : Char → Bool) (l : List Char) :
    (l.dropWhile p).dropWhile p = l.dropWhile p := by
  induction l with
  | nil => simp [List.dropWhile]
  | cons c cs ih =>
    by_cases h : p c
    · rw [List.dropWhile_cons_of_pos h]
      exact ih
    · rw [List.dropWhile_cons_of_neg h, List.dropWhile_cons_of_neg h]

theorem dropWhile_append_last (p : Char → Bool) (c : Char) (hc : p c = false) :
    ∀ xs : List Char, (xs ++ [c]).dropWhile p = xs.dropWhile p ++ [c] := by
  intro xs
  induction xs with
  | nil => simp [List.dropWhile, hc]
  | cons d ds ih =>
    by_cases h : p d
    · simp only [List.cons_append, List.dropWhile, h]
      exact ih
    · simp [List.dropWhile, h]

theorem dropTrailing_cons (p : Char → Bool) (c : Char) (cs : List Char)
    (hc : p c = false) :
    dropTrailing p (c :: cs) = c :: dropTrailing p cs := by
  unfold dropTrailing
  rw [List.reverse_cons, dropWhile_append_last p c hc, List.reverse_append]
  simp

theorem dropTrailing_keeps_head (p : Char → Bool) (l : List Char)
    (hl : l.dropWhile p = l) : (dropTrailing p l).dropWhile p = dropTrailing p l := by
  cases l with
  | nil => simp [dropTrailing, List.dropWhile]
  | cons c cs =>
    have hc : p c = false := by
      by_contra h
      simp only [List.dropWhile, Bool.not_eq_false] at h
      rw [List.dropWhile_cons_of_pos h] at hl
      have := length_dropWhile_le p cs
      have h2 : (c :: cs).length = cs.length + 1 := by simp
      rw [← hl] at h2
      omega
    rw [dropTrailing_cons p c cs hc]
    simp [List.dropWhile, hc]

theorem dropTrailing_idem (p : Char → Bool) (l : List Char) :
    dropTrailing p (dropTrailing p l) = dropTrailing p l := by
  unfold dropTrailing
  rw [List.reverse_reverse, dropWhile_idem]

theorem stripBoth_dropWhile (l : List Char) :
    (stripBoth l).dropWhile isPySpace = stripBoth l := by
  unfold stripBoth
  exact dropTrailing_keeps_head isPySpace _ (dropWhile_idem isPySpace l)

theorem stripBoth_idem (l : List Char) :
    stripBoth (stripBoth l) = stripBoth l := by
  have h1 := stripBoth_dropWhile (l := l)
  show dropTrailing isPySpace ((stripBoth l).dropWhile isPySpace) = stripBoth l
  rw [h1]
  unfold stripBoth
  exact dropTrailing_idem isPySpace _

theorem mem_dropTrailing {p : Char → Bool} {l : List Char} {c : Char}
    (h : c ∈ dropTrailing p l) : c ∈ l := by
  unfold dropTrailing at h
  rw [List.mem_reverse] at h
  have h2 : c ∈ l.reverse := (List.dropWhile_sublist p).subset h
  rwa [List.mem_reverse] at h2

theorem mem_stripBoth {l : List Char} {c : Char}
    (h : c ∈ stripBoth l) : c ∈ l := by
  unfold stripBoth at h
  have h2 := mem_dropTrailing h
  exact (List.dropWhile_sublist _).subset h2

theorem takeWhile_pred {p : Char → Bool} {l : List Char} :
    ∀ c ∈ l.takeWhile p, p c := by
  induction l with
  | nil => simp [List.takeWhile]
  | cons d ds ih =>
    intro c hc
    by_cases h : p d
    · rw [List.takeWhile_cons_of_pos h] at hc
      rcases List.mem_cons.mp hc with h1 | h1
      · exact h1 ▸ h
      · exact ih c h1
    · rw [List.takeWhile_cons_of_neg h] at hc
      simp at hc

theorem takeWhile_all_append (p : Char → Bool) (ws : List Char) (b : Char)
    (rest : List Char) (hws : ∀ c ∈ ws, p c) (hb : p b = false) :
    (ws ++ b :: rest).takeWhile p = ws := by
  induction ws with
  | nil => simp [List.takeWhile, hb]
  | cons d ds ih =>
    have hd : p d := hws d (List.mem_cons_self d ds)
    simp only [List.cons_append, List.takeWhile_cons_of_pos hd]
    rw [ih (fun c hc => hws c (List.mem_cons_of_mem d hc))]

theorem dropWhile_all_append (p : Char → Bool) (ws : List Char) (b : Char)
    (rest : List Char) (hws : ∀ c ∈ ws, p c) (hb : p b = false) :
    (ws ++ b :: rest).dropWhile p = b :: rest := by
  induction ws with
  | nil => simp [List.dropWhile, hb]
  | cons d ds ih =>
    have hd : p d := hws d (List.mem_cons_self d ds)
    simp only [List.cons_append, List.dropWhile_cons_of_pos hd]
    exact ih (fun c hc => hws c (List.mem_cons_of_mem d hc))

-- ------------------------------------------------------------------
-- Bullet Normalizer (`normalize_bullet_points`, source lines 208-233)
-- ------------------------------------------------------------------

/-- The character class of the first bullet pattern
`^(\s*)[-–—*▪▫■□◆◇➤➔✓✔>]\s+` (exact code points from the source). -/
def isG1 (c : Char) : Bool :=
  c = '-' || c = Char.ofNat 0x2013 || c = Char.ofNat 0x2014 || c = '*' ||
  c = Char.ofNat 0x25aa || c = Char.ofNat 0x25ab || c = Char.ofNat 0x25a0 ||
  c = Char.ofNat 0x25a1 || c = Char.ofNat 0x25c6 || c = Char.ofNat 0x25c7 ||
  c = Char.ofNat 0x27a4 || c = Char.ofNat 0x2794 || c = Char.ofNat 0x2713 ||
  c = Char.ofNat 0x2714 || c = '>'

/-- Is the first character of `t` whitespace (the `\s+` requirement after
the glyph)? -/
def headIsWs : List Char → Bool
  | [] => false
  | d :: _ => isPySpace d

/-- Is the first character of `t` an ASCII capital (the `(?=[A-Z])`
lookahead of the fourth pattern)? -/
def headIsAZ : List Char → Bool
  | [] => false
  | d :: _ => 'A' ≤ d && d ≤ 'Z'

/-- One line of `normalize_bullet_points`: try the four bullet patterns in
order (first match wins); on a match the line is rewritten to the captured
indentation, a canonical bullet `• `, and the stripped remainder after the
matched whitespace run.  The three first patterns differ only in the glyph
class, so they are merged into one test (the classes are disjoint). -/
def normLine (l : List Char) : List Char :=
  match l.dropWhile isPySpace with
  | [] => l
  | c :: t =>
    if (isG1 c || c = Char.ofNat 0x2022 || c = Char.ofNat 0xb7) && headIsWs t then
      l.takeWhile isPySpace ++ '•' :: ' ' :: stripBoth (t.dropWhile isPySpace)
    else if c = 'o' && headIsWs t && headIsAZ (t.dropWhile isPySpace) then
      l.takeWhile isPySpace ++ '•' :: ' ' :: stripBoth (t.dropWhile isPySpace)
    else l

/-- Embedding of `normalize_bullet_points`: split on newlines, rewrite each line,
re-join. -/
def normalizeList (l : List Char) : List Char :=
  joinNl ((splitNl l).map normLine)

/-- String wrapper matching the source signature. -/
def normalize_bullet_points (s : String) : String :=
  ⟨normalizeList s.data⟩

/-- Does a line match one of the four bullet patterns of
`normalize_bullet_points` (same tests as `normLine`)? -/
def bulletMatches (l : List Char) : Bool :=
  match l.dropWhile isPySpace with
  | [] => false
  | c :: t =>
    ((isG1 c || c = Char.ofNat 0x2022 || c = Char.ofNat 0xb7) && headIsWs t) ||
    (c = 'o' && headIsWs t && headIsAZ (t.dropWhile isPySpace))

theorem normLine_of_no_match (l : List Char) (h : bulletMatches l = false) :
    normLine l = l := by
  unfold bulletMatches at h
  unfold normLine
  cases hd : l.dropWhile isPySpace with
  | nil => rfl
  | cons c t =>
    rw [hd] at h
    have h1 : ((isG1 c || c = Char.ofNat 0x2022 || c = Char.ofNat 0xb7) && headIsWs t) = false := by
      rcases Bool.or_eq_false_iff.mp h with ⟨h1, _⟩
      exact h1
    have h2 : (c = 'o' && headIsWs t && headIsAZ (t.dropWhile isPySpace)) = false := by
      rcases Bool.or_eq_false_iff.mp h with ⟨_, h2⟩
      exact h2
    simp [h1, h2]

theorem normLine_canonical (ws y : List Char) (hws : ∀ c ∈ ws, isPySpace c) :
    normLine (ws ++ '•' :: ' ' :: stripBoth y) = ws ++ '•' :: ' ' :: stripBoth y := by
  have hbul : isPySpace '•' = false := by decide
  have hdrop : (ws ++ '•' :: ' ' :: stripBoth y).dropWhile isPySpace
      = '•' :: ' ' :: stripBoth y := dropWhile_all_append _ ws _ _ hws hbul
  have htake : (ws ++ '•' :: ' ' :: stripBoth y).takeWhile isPySpace = ws :=
    takeWhile_all_append _ ws _ _ hws hbul
  have hcond : ((isG1 '•' || '•' = Char.ofNat 0x2022 || '•' = Char.ofNat 0xb7)
      && headIsWs (' ' :: stripBoth y)) = true := rfl
  unfold normLine
  rw [hdrop]
  have hsp : isPySpace ' ' = true := by decide
  simp only [htake, List.dropWhile_cons_of_pos hsp, stripBoth_dropWhile, stripBoth_idem]
  split
  · rfl
  · split
    · rfl
    · exact absurd hcond (by simp_all)

theorem normLine_idem (l : List Char) : normLine (normLine l) = normLine l := by
  by_cases hm : bulletMatches l = false
  · rw [normLine_of_no_match l hm, normLine_of_no_match l hm]
  · have hm' : bulletMatches l = true := by
      cases h : bulletMatches l
      · exact absurd h hm
      · rfl
    unfold bulletMatches at hm'
    cases hd : l.dropWhile isPySpace with
    | nil => rw [hd] at hm'; exact absurd hm' (by simp)
    | cons c t =>
      rw [hd] at hm'
      have hl : normLine l = l.takeWhile isPySpace ++ '•' :: ' ' ::
          stripBoth (t.dropWhile isPySpace) := by
        unfold normLine
        rw [hd]
        rcases Bool.or_eq_true_iff.mp hm' with h1 | h2
        · simp [h1]
        · by_cases h1 : ((isG1 c || c = Char.ofNat 0x2022 || c = Char.ofNat 0xb7) && headIsWs t) = true
          · simp [h1]
          · simp only [Bool.not_eq_true] at h1
            simp [h1, h2]
      rw [hl]
      exact normLine_canonical _ _ (fun c hc => takeWhile_pred c hc)

theorem normLine_no_newline (l : List Char) (h : '\n' ∉ l) :
    '\n' ∉ normLine l := by
  unfold normLine
  cases hd : l.dropWhile isPySpace with
  | nil => exact h
  | cons c t =>
    have hmem : ∀ x, x ∈ l.takeWhile isPySpace ++ '•' :: ' ' ::
        stripBoth (t.dropWhile isPySpace) → x = '\n' → False := by
      intro x hx hxn
      subst hxn
      rcases List.mem_append.mp hx with h1 | h1
      · exact h ((List.takeWhile_sublist _).subset h1)
      · rcases List.mem_cons.mp h1 with h2 | h2
        · exact absurd h2 (by decide)
        · rcases List.mem_cons.mp h2 with h3 | h3
          · exact absurd h3 (by decide)
          · have h4 : '\n' ∈ t.dropWhile isPySpace := mem_stripBoth h3
            have h5 : '\n' ∈ t := (List.dropWhile_sublist _).subset h4
            have h6 : '\n' ∈ c :: t := List.mem_cons_of_mem c h5
            rw [← hd] at h6
            exact h ((List.dropWhile_sublist _).subset h6)
    by_cases h1 : ((isG1 c || c = Char.ofNat 0x2022 || c = Char.ofNat 0xb7) && headIsWs t) = true
    · simp only [h1, if_true]
      intro hx
      exact hmem '\n' hx rfl
    · simp only [Bool.not_eq_true] at h1
      simp only [h1, Bool.false_eq_true, if_false]
      by_cases h2 : (c = 'o' && headIsWs t && headIsAZ (t.dropWhile isPySpace)) = true
      · simp only [h2, if_true]
        intro hx
        exact hmem '\n' hx rfl
      · simp only [Bool.not_eq_true] at h2
        simp only [h2, Bool.false_eq_true, if_false]
        exact h

theorem normalizeList_split (l : List Char) :
    splitNl (normalizeList l) = (splitNl l).map normLine := by
  unfold normalizeList
  apply splitNl_join
  · have := splitNl_ne_nil l
    intro hmap
    exact this (List.map_eq_nil_iff.mp hmap)
  · intro p hp
    rcases List.mem_map.mp hp with ⟨q, hq, hpq⟩
    subst hpq
    exact normLine_no_newline q (splitNl_no_newline l q hq)

theorem normalizeList_idem (l : List Char) :
    normalizeList (normalizeList l) = normalizeList l := by
  have h1 : normalizeList (normalizeList l)
      = joinNl ((splitNl (normalizeList l)).map normLine) := rfl
  rw [h1, normalizeList_split]
  unfold normalizeList
  congr 1
  rw [List.map_map]
  apply List.map_congr_left
  intro a _
  show normLine (normLine a) = normLine a
  exact normLine_idem a

/-- The recognized bullet glyphs of `normalize_bullet_points`: the class
of the first pattern plus `•` (U+2022) and `·` (U+00B7), which have their
own patterns.  `●` (U+25CF), `○` (U+25CB) and `►` (U+25BA) are NOT in any
pattern. -/
def recognizedBulletGlyphs : List Char :=
  ['-', Char.ofNat 0x2013, Char.ofNat 0x2014, '*', Char.ofNat 0x25aa,
   Char.ofNat 0x25ab, Char.ofNat 0x25a0, Char.ofNat 0x25a1, Char.ofNat 0x25c6,
   Char.ofNat 0x25c7, Char.ofNat 0x27a4, Char.ofNat 0x2794, Char.ofNat 0x2713,
   Char.ofNat 0x2714, '>', Char.ofNat 0x2022, Char.ofNat 0xb7]

/-- C7: the Bullet Normalizer is idempotent: for every input text `x`,
`normalize_bullet_points (normalize_bullet_points x) =
normalize_bullet_points x`. -/
theorem C7_bullet_normalizer_idempotent (s : String) :
    normalize_bullet_points (normalize_bullet_points s) = normalize_bullet_points s := by
  show String.mk (normalizeList (String.mk (normalizeList s.data)).data)
      = String.mk (normalizeList s.data)
  exact congrArg String.mk (normalizeList_idem s.data)

/-- C10: the Bullet Normalizer operates strictly line-wise: splitting the
output on newlines gives exactly the per-line rewrite of the input lines
(in particular the line count is preserved and each output line depends
only on the corresponding input line). -/
theorem C10_bullet_normalizer_linewise (s : String) :
    splitNl (normalize_bullet_points s).data = (splitNl s.data).map normLine ∧
    (splitNl (normalize_bullet_points s).data).length = (splitNl s.data).length := by
  refine ⟨normalizeList_split s.data, ?_⟩
  show (splitNl (normalizeList s.data)).length = _
  rw [normalizeList_split s.data]
  simp

/-- C8 counterexample: `●` (U+25CF) is claimed to be in the recognized
bullet set, but the line `"  ● Text"` passes through the Bullet
Normalizer unchanged instead of becoming `"  • Text"`. -/
theorem C8_counterexample_black_circle :
    normalize_bullet_points "  ● Text" = "  ● Text" ∧
    normalize_bullet_points "  ● Text" ≠ "  • Text" := by
  constructor
  · decide
  · decide

/-- C8 amended: for every glyph `g` in the set actually recognized by the
source (`-`, `–`, `—`, `*`, `▪`, `▫`, `■`, `□`, `◆`, `◇`, `➤`, `➔`, `✓`,
`✔`, `>`, `•`, `·` — not `●`, `○` or `►`), the line `"  g Text"` is
rewritten to `"  • Text"` with the indentation preserved and the
remainder trimmed, and every line matching no bullet pattern passes
through unchanged. -/
theorem C8_amended_recognized_glyphs :
    (∀ g ∈ recognizedBulletGlyphs,
      normalize_bullet_points ⟨[' ', ' ', g, ' ', 'T', 'e', 'x', 't']⟩ = "  • Text") ∧
    (∀ l : List Char, bulletMatches l = false → normLine l = l) := by
  constructor
  · intro g hg
    fin_cases hg <;> decide
  · exact normLine_of_no_match

/-- C8 witness: the amended theorem applied to the concrete glyph `-` and
to a concrete non-bullet line. -/
theorem C8_witness :
    normalize_bullet_points ⟨[' ', ' ', '-', ' ', 'T', 'e', 'x', 't']⟩ = "  • Text" ∧
    normLine ['a', 'b'] = ['a', 'b'] :=
  ⟨C8_amended_recognized_glyphs.1 '-' (by decide),
   C8_amended_recognized_glyphs.2 ['a', 'b'] (by decide)⟩

-- ------------------------------------------------------------------
-- Section Detector (`detect_resume_sections`, source lines 329-358)
-- ------------------------------------------------------------------

/-- A detected resume section heading (source dict keys `name`, `type`,
`lineNumber`). -/
structure SectionMarker where
  name : String
  type : String
  lineNumber : Nat
deriving DecidableEq

/-- The ordered header rules of the source (each regex is an anchored
alternation of literal phrases, so matching is membership). -/
def sectionRules : List (List String × String) :=
  [(["SUMMARY", "PROFESSIONAL SUMMARY", "PROFILE", "OBJECTIVE",
     "CAREER OBJECTIVE"], "summary"),
   (["EXPERIENCES", "WORK EXPERIENCE", "PROFESSIONAL EXPERIENCES",
     "EMPLOYMENT HISTORY", "WORK HISTORY"], "experience"),
   (["EDUCATION", "ACADEMIC BACKGROUND"], "education"),
   (["SKILLS", "TECHNICAL SKILLS", "CORE COMPETENCIES", "EXPERTISE"], "skills"),
   (["CERTIFICATIONS", "CERTIFICATES", "LICENSES"], "certifications"),
   (["PROJECTS", "KEY PROJECTS"], "projects")]

/-- First matching rule wins (the `for ... break` of the source). -/
def firstRuleMatch : List (List String × String) → String → Option String
  | [], _ => none
  | (phrases, t) :: rest, u =>
    if u ∈ phrases then some t else firstRuleMatch rest u

/-- All `(phrase, sectionType)` pairs, flattened in rule order. -/
def flatSectionRules : List (String × String) :=
  sectionRules.flatMap (fun r => r.1.map (fun p => (p, r.2)))

/-- Per-line step of the detector: strip, uppercase, match the rules;
the marker keeps the original-case stripped text and the line index. -/
def detectLine (i : Nat) (l : List Char) : Option SectionMarker :=
  match firstRuleMatch sectionRules ⟨(stripBoth l).map Char.toUpper⟩ with
  | some t => some ⟨⟨stripBoth l⟩, t, i⟩
  | none => none

/-- Embedding of `detect_resume_sections`: walk the lines in order, collecting markers. -/
def detect_resume_sections (text : String) : List SectionMarker :=
  (splitNl text.data).enum.filterMap (fun p => detectLine p.1 p.2)

theorem firstRuleMatch_iff (rules : List (List String × String)) (u t : String)
    (h : (((rules.flatMap (fun r => r.1.map (fun p => (p, r.2))))).map Prod.fst).Nodup) :
    firstRuleMatch rules u = some t ↔
      (u, t) ∈ rules.flatMap (fun r => r.1.map (fun p => (p, r.2))) := by
  induction rules with
  | nil => simp [firstRuleMatch]
  | cons r rest ih =>
    obtain ⟨ps, ty⟩ := r
    have hflat : ((ps, ty) :: rest).flatMap (fun r => r.1.map (fun p => (p, r.2)))
        = ps.map (fun p => (p, ty))
          ++ rest.flatMap (fun r => r.1.map (fun p => (p, r.2))) := by
      simp [List.flatMap_cons]
    rw [hflat] at h ⊢
    have h' : (ps ++ (rest.flatMap (fun r => r.1.map (fun p => (p, r.2)))).map
        Prod.fst).Nodup := by
      rw [List.map_append, List.map_map] at h
      have hmapfst : List.map (Prod.fst ∘ fun p => (p, ty)) ps = ps := by
        have : (Prod.fst ∘ fun p : String => (p, ty)) = id := by
          funext p
          rfl
        rw [this, List.map_id]
      rwa [hmapfst] at h
    have hsplit := List.nodup_append.mp h'
    by_cases hu : u ∈ ps
    · have hl : firstRuleMatch ((ps, ty) :: rest) u = some ty := by
        simp [firstRuleMatch, hu]
      rw [hl]
      constructor
      · intro he
        have hty : ty = t := by injection he
        subst hty
        exact List.mem_append_left _ (List.mem_map.mpr ⟨u, hu, rfl⟩)
      · intro hm
        rcases List.mem_append.mp hm with h1 | h1
        · rcases List.mem_map.mp h1 with ⟨p, _, hpe⟩
          have hty : ty = t := congrArg Prod.snd hpe
          rw [hty]
        · exfalso
          have hukey : u ∈ (rest.flatMap (fun r => r.1.map (fun p => (p, r.2)))).map
              Prod.fst := List.mem_map.mpr ⟨(u, t), h1, rfl⟩
          exact hsplit.2.2 hu hukey
    · have hl : firstRuleMatch ((ps, ty) :: rest) u = firstRuleMatch rest u := by
        simp [firstRuleMatch, hu]
      rw [hl, ih hsplit.2.1]
      constructor
      · exact fun hm => List.mem_append_right _ hm
      · intro hm
        rcases List.mem_append.mp hm with h1 | h1
        · rcases List.mem_map.mp h1 with ⟨p, hp, hpe⟩
          have hpu : p = u := congrArg Prod.fst hpe
          exact absurd (hpu ▸ hp) hu
        · exact h1

/-- C3 counterexample: the claim says the line `'EXPERIENCE'` (singular)
yields an experience marker, but the source rule list only contains
`EXPERIENCES`, `WORK EXPERIENCE`, `PROFESSIONAL EXPERIENCES`,
`EMPLOYMENT HISTORY`, `WORK HISTORY`; the detector returns no marker. -/
theorem C3_counterexample_experience_singular :
    detect_resume_sections "EXPERIENCE" = [] := by decide

/-- C3 amended: the Section Detector produces a SectionMarker (original
casing, zero-based line index) exactly for lines whose trimmed uppercased
form equals a recognized header phrase; `'EXPERIENCES'` and
`'WORK HISTORY'` (not the singular `'EXPERIENCE'`) map to `experience`,
`'EDUCATION'` to `education`, `'SKILLS'` to `skills`; body lines that
merely contain a header word produce no marker; the three-line example
gives exactly the two claimed markers in order. -/
theorem C3_amended_section_detector :
    detect_resume_sections "EDUCATION\nsome body\nSKILLS"
      = [⟨"EDUCATION", "education", 0⟩, ⟨"SKILLS", "skills", 2⟩] ∧
    detect_resume_sections "WORK HISTORY" = [⟨"WORK HISTORY", "experience", 0⟩] ∧
    detect_resume_sections "EXPERIENCES" = [⟨"EXPERIENCES", "experience", 0⟩] ∧
    detect_resume_sections "  Skills  " = [⟨"Skills", "skills", 0⟩] ∧
    detect_resume_sections "my EDUCATION details" = [] ∧
    (∀ u t : String,
      firstRuleMatch sectionRules u = some t ↔ (u, t) ∈ flatSectionRules) ∧
    (∀ (text : String) (m : SectionMarker), m ∈ detect_resume_sections text ↔
      ∃ l, (m.lineNumber, l) ∈ (splitNl text.data).enum ∧
        m.name = String.mk (stripBoth l) ∧
        (String.mk ((stripBoth l).map Char.toUpper), m.type) ∈ flatSectionRules) := by
  refine ⟨by decide, by decide, by decide, by decide, by decide, ?_, ?_⟩
  · intro u t
    exact firstRuleMatch_iff sectionRules u t (by decide)
  · intro text m
    unfold detect_resume_sections
    rw [List.mem_filterMap]
    constructor
    · rintro ⟨⟨i, l⟩, hmem, hdl⟩
      unfold detectLine at hdl
      cases hfm : firstRuleMatch sectionRules ⟨(stripBoth l).map Char.toUpper⟩ with
      | none =>
        rw [hfm] at hdl
        exact absurd hdl (by simp)
      | some t =>
        rw [hfm] at hdl
        have hm : (⟨⟨stripBoth l⟩, t, i⟩ : SectionMarker) = m := by
          injection hdl
        subst hm
        refine ⟨l, hmem, rfl, ?_⟩
        exact (firstRuleMatch_iff sectionRules _ t (by decide)).mp hfm
    · rintro ⟨l, hmem, hname, htype⟩
      refine ⟨(m.lineNumber, l), hmem, ?_⟩
      unfold detectLine
      rw [(firstRuleMatch_iff sectionRules _ m.type (by decide)).mpr htype]
      obtain ⟨na, ty, ln⟩ := m
      simp only at hname ⊢
      rw [hname]

-- ------------------------------------------------------------------
-- Keyword Matcher (`analyze_resume_against_job`, source lines 467-520)
-- and keyword verification (`verify_keyword_integration`, lines 848-882)
-- ------------------------------------------------------------------

/-- Python `round` (banker's rounding, half to even) of a rational. -/
def pyRound (x : ℚ) : ℤ :=
  if x - ⌊x⌋ < 1/2 then ⌊x⌋
  else if (1:ℚ)/2 < x - ⌊x⌋ then ⌊x⌋ + 1
  else if ⌊x⌋ % 2 = 0 then ⌊x⌋ else ⌊x⌋ + 1

/-- Python `round(x, 1)` on exact rationals. -/
def pyRound1 (x : ℚ) : ℚ := (pyRound (x * 10) : ℚ) / 10

/-- One phrase test of the Keyword Matcher: lowercase substring match, or
some whitespace-split token longer than 3 characters is a substring. -/
def phraseMatches (resumeLower : List Char) (phrase : String) : Bool :=
  occursIn (phrase.data.map Char.toLower) resumeLower ||
    (pySplitWs (phrase.data.map Char.toLower)).any
      (fun w => decide (3 < w.length) && occursIn w resumeLower)

/-- Result record of the Keyword Matcher (keys of the returned dict that
the claims are about). -/
structure AnalyzeResult where
  matchScore : ℚ
  matchingPhrases : List String
  missingPhrases : List String
  totalKeywords : Nat
deriving DecidableEq

/-- Core of `analyze_resume_against_job`.  The job phrases are taken
after the source's field-gathering and `list(set(...))` deduplication
step (whose output order Python leaves unspecified); the early return
for an empty phrase list, the classification loop and the score are
modelled exactly. -/
def analyze_resume_against_job (resumeText : String)
    (jobPhrases : List String) : AnalyzeResult :=
  if jobPhrases.isEmpty then ⟨0, [], [], 0⟩
  else
    let rl := resumeText.data.map Char.toLower
    let matching := jobPhrases.filter (fun p => phraseMatches rl p)
    let missing := jobPhrases.filter (fun p => !phraseMatches rl p)
    ⟨pyRound1 (((matching.length : ℚ) / (max jobPhrases.length 1 : ℕ)) * 100),
     matching, missing, jobPhrases.length⟩

/-- One keyword test of `verify_keyword_integration`: lowercase substring
match, or multi-word and every word occurs somewhere. -/
def keywordIntegrated (optimizedLower : List Char) (k : String) : Bool :=
  occursIn (k.data.map Char.toLower) optimizedLower ||
    (decide (1 < (pySplitWs (k.data.map Char.toLower)).length) &&
      (pySplitWs (k.data.map Char.toLower)).all (fun w => occursIn w optimizedLower))

/-- The verification loop: empty keywords are skipped (`continue`),
others are appended to `integrated` or `missing` in order. -/
def verifyLoop (optimizedLower : List Char) :
    List String → List String × List String
  | [] => ([], [])
  | k :: ks =>
    let r := verifyLoop optimizedLower ks
    if k.isEmpty then r
    else if keywordIntegrated optimizedLower k then (k :: r.1, r.2)
    else (r.1, k :: r.2)

/-- Result record of `verify_keyword_integration`. -/
structure VerifyResult where
  integrated : List String
  missing : List String
  integrationRate : ℚ
deriving DecidableEq

/-- Embedding of `verify_keyword_integration`.  The source also coerces dict/other
keyword representations to strings first; the model takes the coerced
strings.  The rate divides by the length of the full requested list
(`max(len(keywords), 1)`), skipped empties included. -/
def verify_keyword_integration (optimizedText : String)
    (keywords : List String) : VerifyResult :=
  let r := verifyLoop (optimizedText.data.map Char.toLower) keywords
  ⟨r.1, r.2,
   pyRound1 (((r.1.length : ℚ) / (max keywords.length 1 : ℕ)) * 100)⟩

theorem verifyLoop_eq_filter (ol : List Char) (ks : List String) :
    verifyLoop ol ks
      = (ks.filter (fun k => !k.isEmpty && keywordIntegrated ol k),
         ks.filter (fun k => !k.isEmpty && !keywordIntegrated ol k)) := by
  induction ks with
  | nil => rfl
  | cons k ks ih =>
    simp only [verifyLoop, ih]
    by_cases he : k.isEmpty
    · simp [he, List.filter_cons]
    · have he' : k.isEmpty = false := by
        cases h : k.isEmpty
        · rfl
        · exact absurd h he
      by_cases hi : keywordIntegrated ol k
      · simp [he', hi, List.filter_cons]
      · have hi' : keywordIntegrated ol k = false := by
          cases h : keywordIntegrated ol k
          · rfl
          · exact absurd h hi
        simp [he', hi', List.filter_cons]

theorem phraseMatches_iff (rl : List Char) (p : String) :
    phraseMatches rl p = true ↔
      (occursIn (p.data.map Char.toLower) rl = true ∨
       ∃ w ∈ pySplitWs (p.data.map Char.toLower),
         3 < w.length ∧ occursIn w rl = true) := by
  unfold phraseMatches
  simp only [Bool.or_eq_true, List.any_eq_true, Bool.and_eq_true, decide_eq_true_eq]

theorem not_eq_true_iff_not {b : Bool} {q : Prop} (h : b = true ↔ q) :
    b = false ↔ ¬q := by
  rw [← Bool.not_eq_true b]
  exact not_congr h

theorem isEmpty_false_iff (s : String) : s.isEmpty = false ↔ s ≠ "" :=
  not_eq_true_iff_not (String.isEmpty_iff s)

theorem analyze_eq (resumeText : String) (phrases : List String)
    (h : phrases.isEmpty = false) :
    analyze_resume_against_job resumeText phrases =
      ⟨pyRound1 ((((phrases.filter (fun p =>
            phraseMatches (resumeText.data.map Char.toLower) p)).length : ℚ)
          / (max phrases.length 1 : ℕ)) * 100),
       phrases.filter (fun p => phraseMatches (resumeText.data.map Char.toLower) p),
       phrases.filter (fun p => !phraseMatches (resumeText.data.map Char.toLower) p),
       phrases.length⟩ := by
  unfold analyze_resume_against_job
  rw [h]
  rfl

/-- C4: the Keyword Matcher classifies a phrase as matching iff its
lowercase form is a substring of the lowercase resume text or some
whitespace-split token of it longer than 3 characters is; the rest are
missing; the match score is `matching/total*100` rounded to one decimal
and 0 for an empty phrase list; the concrete example of the claim
evaluates exactly as claimed. -/
theorem C4_keyword_matcher :
    (∀ (resumeText : String) (phrases : List String) (p : String),
      p ∈ (analyze_resume_against_job resumeText phrases).matchingPhrases ↔
        p ∈ phrases ∧
          (occursIn (p.data.map Char.toLower) (resumeText.data.map Char.toLower) = true ∨
           ∃ w ∈ pySplitWs (p.data.map Char.toLower),
             3 < w.length ∧ occursIn w (resumeText.data.map Char.toLower) = true)) ∧
    (∀ (resumeText : String) (phrases : List String) (p : String),
      p ∈ (analyze_resume_against_job resumeText phrases).missingPhrases ↔
        p ∈ phrases ∧
          ¬(occursIn (p.data.map Char.toLower) (resumeText.data.map Char.toLower) = true ∨
            ∃ w ∈ pySplitWs (p.data.map Char.toLower),
              3 < w.length ∧ occursIn w (resumeText.data.map Char.toLower) = true)) ∧
    (∀ (resumeText : String) (phrases : List String),
      (analyze_resume_against_job resumeText phrases).matchScore
        = if phrases.isEmpty then 0
          else pyRound1 ((((analyze_resume_against_job resumeText
              phrases).matchingPhrases.length : ℚ) / (max phrases.length 1 : ℕ)) * 100)) ∧
    analyze_resume_against_job "Experienced in Python and SQL"
        ["Python", "Machine Learning"]
      = ⟨50, ["Python"], ["Machine Learning"], 2⟩ := by
  have hmain : ∀ (resumeText : String) (phrases : List String) (p : String),
      p ∈ (analyze_resume_against_job resumeText phrases).matchingPhrases ↔
        p ∈ phrases ∧
          (occursIn (p.data.map Char.toLower) (resumeText.data.map Char.toLower) = true ∨
           ∃ w ∈ pySplitWs (p.data.map Char.toLower),
             3 < w.length ∧ occursIn w (resumeText.data.map Char.toLower) = true) := by
    intro resumeText phrases p
    cases hps : phrases.isEmpty with
    | true =>
      have hnil : phrases = [] := (List.isEmpty_iff).mp hps
      subst hnil
      simp [analyze_resume_against_job]
    | false =>
      rw [analyze_eq resumeText phrases hps]
      show p ∈ phrases.filter _ ↔ _
      rw [List.mem_filter, phraseMatches_iff]
  refine ⟨hmain, ?_, ?_, ?_⟩
  · intro resumeText phrases p
    cases hps : phrases.isEmpty with
    | true =>
      have hnil : phrases = [] := (List.isEmpty_iff).mp hps
      subst hnil
      simp [analyze_resume_against_job]
    | false =>
      rw [analyze_eq resumeText phrases hps]
      show p ∈ phrases.filter _ ↔ _
      rw [List.mem_filter]
      simp only [Bool.not_eq_true']
      rw [not_eq_true_iff_not (phraseMatches_iff (resumeText.data.map Char.toLower) p)]
  · intro resumeText phrases
    cases hps : phrases.isEmpty with
    | true =>
      have hnil : phrases = [] := (List.isEmpty_iff).mp hps
      subst hnil
      simp [analyze_resume_against_job]
    | false =>
      rw [analyze_eq resumeText phrases hps]
      simp [hps]
  · rw [analyze_eq _ _ (by decide)]
    have hfil : (["Python", "Machine Learning"].filter (fun p =>
        phraseMatches (List.map Char.toLower
          "Experienced in Python and SQL".data) p)) = ["Python"] := by decide
    have hfil2 : (["Python", "Machine Learning"].filter (fun p =>
        !phraseMatches (List.map Char.toLower
          "Experienced in Python and SQL".data) p)) = ["Machine Learning"] := by
      decide
    rw [hfil, hfil2]
    congr 1
    norm_num [pyRound1, pyRound]

theorem keywordIntegrated_iff (ol : List Char) (k : String) :
    keywordIntegrated ol k = true ↔
      (occursIn (k.data.map Char.toLower) ol = true ∨
       (1 < (pySplitWs (k.data.map Char.toLower)).length ∧
        ∀ w ∈ pySplitWs (k.data.map Char.toLower), occursIn w ol = true)) := by
  unfold keywordIntegrated
  simp only [Bool.or_eq_true, Bool.and_eq_true, decide_eq_true_eq, List.all_eq_true]

/-- C5: keyword verification marks a (nonempty) requested keyword
integrated iff its lowercase form is a substring of the final text, or it
is multi-word and every individual word occurs somewhere; the rest are
missing; `integrationRate` is `integrated/requested*100` rounded to one
decimal and 0 when nothing was requested; the scattered-mention and
missing-`SQL` examples evaluate as claimed. -/
theorem C5_keyword_verification :
    (∀ (optimizedText : String) (keywords : List String) (k : String),
      k ∈ (verify_keyword_integration optimizedText keywords).integrated ↔
        k ∈ keywords ∧ k ≠ "" ∧
          (occursIn (k.data.map Char.toLower)
              (optimizedText.data.map Char.toLower) = true ∨
           (1 < (pySplitWs (k.data.map Char.toLower)).length ∧
            ∀ w ∈ pySplitWs (k.data.map Char.toLower),
              occursIn w (optimizedText.data.map Char.toLower) = true))) ∧
    (∀ (optimizedText : String) (keywords : List String) (k : String),
      k ∈ (verify_keyword_integration optimizedText keywords).missing ↔
        k ∈ keywords ∧ k ≠ "" ∧
          ¬(occursIn (k.data.map Char.toLower)
              (optimizedText.data.map Char.toLower) = true ∨
            (1 < (pySplitWs (k.data.map Char.toLower)).length ∧
             ∀ w ∈ pySplitWs (k.data.map Char.toLower),
               occursIn w (optimizedText.data.map Char.toLower) = true))) ∧
    (∀ optimizedText : String,
      (verify_keyword_integration optimizedText []).integrationRate = 0) ∧
    verify_keyword_integration "machine vision and deep learning"
        ["machine learning", "SQL"]
      = ⟨["machine learning"], ["SQL"], 50⟩ := by
  refine ⟨?_, ?_, ?_, ?_⟩
  · intro optimizedText keywords k
    show k ∈ (verifyLoop (optimizedText.data.map Char.toLower) keywords).1 ↔ _
    rw [verifyLoop_eq_filter]
    show k ∈ keywords.filter _ ↔ _
    rw [List.mem_filter, Bool.and_eq_true]
    simp only [Bool.not_eq_true']
    rw [isEmpty_false_iff, keywordIntegrated_iff]
  · intro optimizedText keywords k
    show k ∈ (verifyLoop (optimizedText.data.map Char.toLower) keywords).2 ↔ _
    rw [verifyLoop_eq_filter]
    show k ∈ keywords.filter _ ↔ _
    rw [List.mem_filter, Bool.and_eq_true]
    simp only [Bool.not_eq_true']
    rw [isEmpty_false_iff,
      not_eq_true_iff_not (keywordIntegrated_iff
        (optimizedText.data.map Char.toLower) k)]
  · intro optimizedText
    show pyRound1 _ = 0
    norm_num [verifyLoop, pyRound1, pyRound]
  · show (⟨_, _, pyRound1 _⟩ : VerifyResult) = _
    have h1 : verifyLoop (List.map Char.toLower
        "machine vision and deep learning".data) ["machine learning", "SQL"]
        = (["machine learning"], ["SQL"]) := by decide
    rw [h1]
    congr 1
    norm_num [pyRound1, pyRound]

-- ------------------------------------------------------------------
-- Artifact Cleaner (`clean_encoding_artifacts`, source lines 243-322)
-- ------------------------------------------------------------------

/-- The corrupt glyph class `[ÏïĪīÎîØø]` (exact code points). -/
def isGlyph (c : Char) : Bool :=
  c = Char.ofNat 0xcf || c = Char.ofNat 0xef || c = Char.ofNat 0x12a ||
  c = Char.ofNat 0x12b || c = Char.ofNat 0xce || c = Char.ofNat 0xee ||
  c = Char.ofNat 0xd8 || c = Char.ofNat 0xf8

/-- Is the first character a corrupt glyph? -/
def headIsGlyph : List Char → Bool
  | g :: _ => isGlyph g
  | [] => false

/-- Step 1, `re.sub(r'%[ÏïĪīÎîØø]', '', text)`: delete every
percent-glyph pair, scanning left to right. -/
def removePctGlyph : List Char → List Char
  | [] => []
  | [c] => [c]
  | c :: d :: cs =>
    if c = '%' && isGlyph d then removePctGlyph cs
    else c :: removePctGlyph (d :: cs)

/-- Matcher for `\s*[ÏïĪīÎîØø]`: skip whitespace, require a glyph,
return the remainder. -/
def wsGlyphMatch : List Char → Option (List Char)
  | [] => none
  | c :: cs =>
    if isGlyph c then some cs
    else if isPySpace c then wsGlyphMatch cs
    else none

/-- Step 3, `re.sub(r'%\s*[ÏïĪīÎîØø]', '', text)` (fuel-scanned; every
step consumes at least one character, so `fuel = length` suffices). -/
def removePctWsGlyphGo : Nat → List Char → List Char
  | 0, l => l
  | _ + 1, [] => []
  | fuel + 1, c :: cs =>
    if c = '%' then
      match wsGlyphMatch cs with
      | some rest => removePctWsGlyphGo fuel rest
      | none => c :: removePctWsGlyphGo fuel cs
    else c :: removePctWsGlyphGo fuel cs

/-- Matcher for `\s*%`. -/
def wsPctMatch : List Char → Option (List Char)
  | [] => none
  | c :: cs =>
    if c = '%' then some cs
    else if isPySpace c then wsPctMatch cs
    else none

/-- Step 4, `re.sub(r'[ÏïĪīÎîØø]\s*%', '', text)`. -/
def removeGlyphWsPctGo : Nat → List Char → List Char
  | 0, l => l
  | _ + 1, [] => []
  | fuel + 1, c :: cs =>
    if isGlyph c then
      match wsPctMatch cs with
      | some rest => removeGlyphWsPctGo fuel rest
      | none => c :: removeGlyphWsPctGo fuel cs
    else c :: removeGlyphWsPctGo fuel cs

/-- Python `str.replace` for a three-character pattern (non-overlapping,
left to right, the replacement is not rescanned). -/
def replace3 (p1 p2 p3 : Char) (rep : List Char) : List Char → List Char
  | c1 :: c2 :: c3 :: cs =>
    if c1 = p1 && c2 = p2 && c3 = p3 then rep ++ replace3 p1 p2 p3 rep cs
    else c1 :: replace3 p1 p2 p3 rep (c2 :: c3 :: cs)
  | l => l

/-- Python `str.replace` for a two-character pattern. -/
def replace2 (p1 p2 : Char) (rep : List Char) : List Char → List Char
  | c1 :: c2 :: cs =>
    if c1 = p1 && c2 = p2 then rep ++ replace2 p1 p2 rep cs
    else c1 :: replace2 p1 p2 rep (c2 :: cs)
  | l => l

/-- Step `re.sub(r'[ \t]+', ' ', text)`: collapse every space/tab run to
one space. -/
def cspGo : Nat → List Char → List Char
  | 0, l => l
  | _ + 1, [] => []
  | fuel + 1, c :: cs =>
    if c = ' ' || c = '\t' then
      ' ' :: cspGo fuel (cs.dropWhile (fun d => d = ' ' || d = '\t'))
    else c :: cspGo fuel cs

/-- Step `re.sub(r' *\n+ *', '\n', text)`: each (leftmost, greedy) match
of spaces, a newline run and trailing spaces becomes one newline. -/
def cnlGo : Nat → List Char → List Char
  | 0, l => l
  | _ + 1, [] => []
  | fuel + 1, c :: cs =>
    if ((c :: cs).dropWhile (fun d => d = ' ')).head? = some '\n' then
      '\n' :: cnlGo fuel
        (((((c :: cs).dropWhile (fun d => d = ' ')).tail).dropWhile
          (fun d => d = '\n')).dropWhile (fun d => d = ' '))
    else c :: cnlGo fuel cs

/-- Matcher for the `MULTILINE` pattern `^\s*[•●]\s*%[ÏïĪīÎîØø]?\s*`
applied at a line-start position; returns the remainder together with
whether the last consumed character was a newline (which decides whether
the resume position is again a line start). -/
def bulletPctMatch (l : List Char) : Option (List Char × Bool) :=
  let r1 := l.dropWhile isPySpace
  if r1.head? = some (Char.ofNat 0x2022) || r1.head? = some (Char.ofNat 0x25cf) then
    let r3 := r1.tail.dropWhile isPySpace
    if r3.head? = some '%' then
      let r4 := r3.tail
      let r5 := if headIsGlyph r4 then r4.tail else r4
      some (r5.dropWhile isPySpace,
        decide ((r5.takeWhile isPySpace).getLast? = some '\n'))
    else none
  else none

/-- Step `re.sub(r'^\s*[•●]\s*%[ÏïĪīÎîØø]?\s*', '• ', text, MULTILINE)`.
The boolean tracks whether the scan position is a line start (string
start or just after a newline), where `^` can match. -/
def bulletPctFixGo : Nat → List Char → Bool → List Char
  | 0, l, _ => l
  | _ + 1, [], _ => []
  | fuel + 1, c :: cs, false => c :: bulletPctFixGo fuel cs (decide (c = '\n'))
  | fuel + 1, c :: cs, true =>
    match bulletPctMatch (c :: cs) with
    | some (rest, nl) => Char.ofNat 0x2022 :: ' ' :: bulletPctFixGo fuel rest nl
    | none => c :: bulletPctFixGo fuel cs (decide (c = '\n'))

/-- Matcher for `^\s*%[ÏïĪīÎîØø]\s*` at a line start. -/
def pctGlyphMatch (l : List Char) : Option (List Char × Bool) :=
  let r1 := l.dropWhile isPySpace
  if r1.head? = some '%' then
    if headIsGlyph r1.tail then
      let r3 := r1.tail.tail
      some (r3.dropWhile isPySpace,
        decide ((r3.takeWhile isPySpace).getLast? = some '\n'))
    else none
  else none

/-- Step `re.sub(r'^\s*%[ÏïĪīÎîØø]\s*', '• ', text, MULTILINE)`. -/
def pctGlyphFixGo : Nat → List Char → Bool → List Char
  | 0, l, _ => l
  | _ + 1, [], _ => []
  | fuel + 1, c :: cs, false => c :: pctGlyphFixGo fuel cs (decide (c = '\n'))
  | fuel + 1, c :: cs, true =>
    match pctGlyphMatch (c :: cs) with
    | some (rest, nl) => Char.ofNat 0x2022 :: ' ' :: pctGlyphFixGo fuel rest nl
    | none => c :: pctGlyphFixGo fuel cs (decide (c = '\n'))

/-- Steps `re.sub(r'PROFESSIONAL\s+EXPERIENCES', 'PROFESSIONAL
EXPERIENCES', ...)` and the TECHNICAL PROJECTS variant: re-glue the two
words around a whitespace run. -/
def reGlueGo (w1 w2 : List Char) : Nat → List Char → List Char
  | 0, l => l
  | _ + 1, [] => []
  | fuel + 1, c :: cs =>
    if startsWithL w1 (c :: cs) then
      let r1 := (c :: cs).drop w1.length
      let r2 := r1.dropWhile isPySpace
      if !(r1.takeWhile isPySpace).isEmpty && startsWithL w2 r2 then
        w1 ++ ' ' :: (w2 ++ reGlueGo w1 w2 fuel (r2.drop w2.length))
      else c :: reGlueGo w1 w2 fuel cs
    else c :: reGlueGo w1 w2 fuel cs

/-- Header-isolation step `re.sub(f'([^\n]){header}', f'\\1\n\n{header}',
text)`: insert a blank line before every header occurrence preceded by a
non-newline character. -/
def headerSplitGo (h : List Char) : Nat → List Char → List Char
  | 0, l => l
  | _ + 1, [] => []
  | fuel + 1, c :: cs =>
    if decide (c ≠ '\n') && startsWithL h cs then
      c :: '\n' :: '\n' :: (h ++ headerSplitGo h fuel (cs.drop h.length))
    else c :: headerSplitGo h fuel cs

/-- Steps `re.sub(r'([^\n])•', r'\1\n•', text)` and the `●` variant:
break the line before every inline bullet glyph. -/
def inlineBulletBreak (b : Char) : List Char → List Char
  | c :: d :: cs =>
    if decide (c ≠ '\n') && decide (d = b) then
      c :: '\n' :: b :: inlineBulletBreak b cs
    else c :: inlineBulletBreak b (d :: cs)
  | l => l

/-- The section headers of the header-isolation loop, in source order. -/
def cleanHeadersList : List String :=
  ["EDUCATION", "TECHNICAL SKILLS", "PROFESSIONAL EXPERIENCES",
   "TECHNICAL PROJECTS", "PROJECTS", "LEADERSHIP", "CERTIFICATIONS"]

/-- Embedding of `clean_encoding_artifacts` on the character list: the thirteen
substitution steps of the source in order, then `str.strip()`.  (The
source's debug printing and its defensive coercion of non-string input
are outside the text transformation and are not modelled.) -/
def cleanList (l : List Char) : List Char :=
  let t1 := removePctGlyph l
  let t2 := t1.filter (fun c => !isGlyph c)
  let t3 := removePctWsGlyphGo t2.length t2
  let t4 := removeGlyphWsPctGo t3.length t3
  let t5 := replace3 'â' '€' '¢' [Char.ofNat 0x2022] t4
  let t6 := replace3 'â' '€' (Char.ofNat 0x22) [Char.ofNat 0x2013] t5
  let t7 := replace3 'â' '€' (Char.ofNat 0x2122) [Char.ofNat 0x27] t6
  let t8 := replace3 'â' '€' (Char.ofNat 0x153) [Char.ofNat 0x22] t7
  let t9 := replace2 'â' '€' [Char.ofNat 0x22] t8
  let t10 := cspGo t9.length t9
  let t11 := cnlGo t10.length t10
  let t12 := bulletPctFixGo t11.length t11 true
  let t13 := pctGlyphFixGo t12.length t12 true
  let t14 := reGlueGo "PROFESSIONAL".data "EXPERIENCES".data t13.length t13
  let t15 := reGlueGo "TECHNICAL".data "PROJECTS".data t14.length t14
  let t16 := cleanHeadersList.foldl
    (fun acc h => headerSplitGo h.data acc.length acc) t15
  let t17 := inlineBulletBreak (Char.ofNat 0x2022) t16
  let t18 := inlineBulletBreak (Char.ofNat 0x25cf) t17
  stripBoth t18

/-- String wrapper matching the source signature. -/
def clean_encoding_artifacts (s : String) : String :=
  ⟨cleanList s.data⟩

-- ------------------------------------------------------------------
-- identity of the cleaner steps on trigger-free text
-- ------------------------------------------------------------------

/-- No two adjacent whitespace characters. -/
def noAdjWs : List Char → Bool
  | c :: d :: cs => !(isPySpace c && isPySpace d) && noAdjWs (d :: cs)
  | _ => true

/-- The first character (if any) is not whitespace. -/
def headNotWs : List Char → Bool
  | [] => true
  | c :: _ => !isPySpace c

/-- The last character (if any) is not whitespace. -/
def lastNotWs (l : List Char) : Bool := headNotWs l.reverse

/-- A character that triggers none of the cleaner's character-level
substitutions: not a corrupt glyph, not the mojibake lead byte `â`, not
`%`, not a bullet glyph (`•`/`●`), not a tab. -/
def inertChar (c : Char) : Bool :=
  !isGlyph c && !(c = 'â') && !(c = '%') && !(c = Char.ofNat 0x2022) &&
  !(c = Char.ofNat 0x25cf) && !(c = '\t')

/-- Text on which every cleaner step is the identity: inert characters,
whitespace already normalized (no adjacent whitespace pair, no leading or
trailing whitespace) and no occurrence of a section-header keyword. -/
def cleanInert (l : List Char) : Bool :=
  l.all inertChar && noAdjWs l && headNotWs l && lastNotWs l &&
  !occursIn "EDUCATION".data l && !occursIn "TECHNICAL".data l &&
  !occursIn "PROFESSIONAL".data l && !occursIn "PROJECTS".data l &&
  !occursIn "LEADERSHIP".data l && !occursIn "CERTIFICATIONS".data l

theorem mem_of_head? {l : List Char} {a : Char} (h : l.head? = some a) :
    a ∈ l := by
  cases l with
  | nil => simp at h
  | cons c cs =>
    simp at h
    exact h ▸ List.mem_cons_self c cs

theorem noAdjWs_tail {c : Char} {cs : List Char}
    (h : noAdjWs (c :: cs) = true) : noAdjWs cs = true := by
  cases cs with
  | nil => rfl
  | cons d ds =>
    simp only [noAdjWs, Bool.and_eq_true] at h
    exact h.2

theorem noAdjWs_pair {c d : Char} {ds : List Char}
    (h : noAdjWs (c :: d :: ds) = true) (hc : isPySpace c = true) :
    isPySpace d = false := by
  simp only [noAdjWs, Bool.and_eq_true] at h
  rcases h with ⟨h1, _⟩
  simp only [Bool.not_eq_true'] at h1
  cases hd : isPySpace d
  · rfl
  · rw [hc, hd] at h1
    exact absurd h1 (by simp)

theorem removePctGlyph_id : ∀ (l : List Char),
    (∀ c ∈ l, isGlyph c = false) → removePctGlyph l = l
  | [], _ => rfl
  | [_], _ => rfl
  | c :: d :: cs, h => by
    have hd : isGlyph d = false := h d (by simp)
    have hcond : (decide (c = '%') && isGlyph d) = false := by simp [hd]
    simp only [removePctGlyph, hcond, Bool.false_eq_true, if_false]
    rw [removePctGlyph_id (d :: cs) (fun x hx => h x (List.mem_cons_of_mem c hx))]

theorem filter_glyph_id (l : List Char) (h : ∀ c ∈ l, isGlyph c = false) :
    l.filter (fun c => !isGlyph c) = l := by
  induction l with
  | nil => rfl
  | cons c cs ih =>
    have hc : (!isGlyph c) = true := by simp [h c (List.mem_cons_self c cs)]
    rw [List.filter_cons, if_pos hc, ih (fun x hx => h x (List.mem_cons_of_mem c hx))]

theorem removePctWsGlyphGo_id : ∀ (fuel : Nat) (l : List Char), '%' ∉ l →
    removePctWsGlyphGo fuel l = l
  | 0, _, _ => rfl
  | _ + 1, [], _ => rfl
  | fuel + 1, c :: cs, h => by
    have hc : ¬(c = '%') := fun he => h (by simp [he])
    simp only [removePctWsGlyphGo, hc, if_false]
    rw [removePctWsGlyphGo_id fuel cs (fun hm => h (List.mem_cons_of_mem c hm))]

theorem removeGlyphWsPctGo_id : ∀ (fuel : Nat) (l : List Char),
    (∀ c ∈ l, isGlyph c = false) → removeGlyphWsPctGo fuel l = l
  | 0, _, _ => rfl
  | _ + 1, [], _ => rfl
  | fuel + 1, c :: cs, h => by
    have hc : isGlyph c = false := h c (List.mem_cons_self c cs)
    simp only [removeGlyphWsPctGo, hc, Bool.false_eq_true, if_false]
    rw [removeGlyphWsPctGo_id fuel cs (fun x hx => h x (List.mem_cons_of_mem c hx))]

theorem replace3_id (p1 p2 p3 : Char) (rep : List Char) :
    ∀ (l : List Char), p1 ∉ l → replace3 p1 p2 p3 rep l = l
  | [], _ => rfl
  | [_], _ => rfl
  | [_, _], _ => rfl
  | c1 :: c2 :: c3 :: cs, h => by
    have hc : ¬(c1 = p1) := fun he => h (by simp [he])
    have hcond : (decide (c1 = p1) && decide (c2 = p2) && decide (c3 = p3))
        = false := by simp [hc]
    simp only [replace3, hcond, Bool.false_eq_true, if_false]
    rw [replace3_id p1 p2 p3 rep (c2 :: c3 :: cs)
      (fun hm => h (List.mem_cons_of_mem c1 hm))]

theorem replace2_id (p1 p2 : Char) (rep : List Char) :
    ∀ (l : List Char), p1 ∉ l → replace2 p1 p2 rep l = l
  | [], _ => rfl
  | [_], _ => rfl
  | c1 :: c2 :: cs, h => by
    have hc : ¬(c1 = p1) := fun he => h (by simp [he])
    have hcond : (decide (c1 = p1) && decide (c2 = p2)) = false := by simp [hc]
    simp only [replace2, hcond, Bool.false_eq_true, if_false]
    rw [replace2_id p1 p2 rep (c2 :: cs) (fun hm => h (List.mem_cons_of_mem c1 hm))]

theorem cspGo_id : ∀ (fuel : Nat) (l : List Char), '\t' ∉ l →
    noAdjWs l = true → cspGo fuel l = l
  | 0, _, _, _ => rfl
  | _ + 1, [], _, _ => rfl
  | fuel + 1, c :: cs, ht, ha => by
    by_cases hsp : c = ' '
    · subst hsp
      have hdrop : cs.dropWhile (fun d => d = ' ' || d = '\t') = cs := by
        cases cs with
        | nil => rfl
        | cons d ds =>
          have hd : isPySpace d = false := noAdjWs_pair ha (by decide)
          have hd1 : ¬(d = ' ') := fun he => by
            rw [he] at hd
            exact absurd hd (by decide)
          have hd2 : ¬(d = '\t') := fun he => by
            rw [he] at hd
            exact absurd hd (by decide)
          rw [List.dropWhile_cons_of_neg (by simp [hd1, hd2])]
      have hrec := cspGo_id fuel cs (fun hm => ht (List.mem_cons_of_mem _ hm))
        (noAdjWs_tail ha)
      simp only [cspGo, hdrop, hrec, ite_self]
    · have hc2 : ¬(c = '\t') := fun he => ht (by simp [he])
      have hcond : (decide (c = ' ') || decide (c = '\t')) = false := by
        simp [hsp, hc2]
      simp only [cspGo, hcond, Bool.false_eq_true, if_false]
      rw [cspGo_id fuel cs (fun hm => ht (List.mem_cons_of_mem _ hm)) (noAdjWs_tail ha)]

theorem cnlGo_nil : ∀ fuel : Nat, cnlGo fuel [] = []
  | 0 => rfl
  | _ + 1 => rfl

theorem cnlGo_id : ∀ (fuel : Nat) (l : List Char), noAdjWs l = true →
    cnlGo fuel l = l
  | 0, _, _ => rfl
  | _ + 1, [], _ => rfl
  | fuel + 1, c :: cs, ha => by
    by_cases hnl : c = '\n'
    · subst hnl
      have hdw : ('\n' :: cs).dropWhile (fun d => d = ' ') = '\n' :: cs :=
        List.dropWhile_cons_of_neg (by decide)
      cases cs with
      | nil =>
        simp only [cnlGo, hdw]
        rw [if_pos (show (['\n'] : List Char).head? = some '\n' from rfl)]
        show '\n' :: cnlGo fuel [] = ['\n']
        rw [cnlGo_nil]
      | cons d ds =>
        have hd : isPySpace d = false := noAdjWs_pair ha (by decide)
        have hd1 : ¬(d = '\n') := fun he => by
          rw [he] at hd
          exact absurd hd (by decide)
        have hd2 : ¬(d = ' ') := fun he => by
          rw [he] at hd
          exact absurd hd (by decide)
        simp only [cnlGo, hdw]
        rw [if_pos (show ('\n' :: d :: ds).head? = some '\n' from rfl)]
        show '\n' :: cnlGo fuel (((d :: ds).dropWhile (fun x => decide (x = '\n'))).dropWhile
          (fun x => decide (x = ' '))) = '\n' :: d :: ds
        rw [List.dropWhile_cons_of_neg (by simp [hd1]),
          List.dropWhile_cons_of_neg (by simp [hd2])]
        rw [cnlGo_id fuel (d :: ds) (noAdjWs_tail ha)]
    · have hne : ((c :: cs).dropWhile (fun d => d = ' ')).head? ≠ some '\n' := by
        by_cases hsp : c = ' '
        · subst hsp
          rw [List.dropWhile_cons_of_pos (by decide)]
          cases cs with
          | nil => simp [List.dropWhile]
          | cons d ds =>
            have hd : isPySpace d = false := noAdjWs_pair ha (by decide)
            have hd2 : ¬(d = ' ') := fun he => by
              rw [he] at hd
              exact absurd hd (by decide)
            rw [List.dropWhile_cons_of_neg (by simp [hd2])]
            intro hcon
            simp at hcon
            rw [hcon] at hd
            exact absurd hd (by decide)
        · rw [List.dropWhile_cons_of_neg (by simp [hsp])]
          intro hcon
          simp at hcon
          exact hnl hcon
      simp only [cnlGo]
      rw [if_neg hne]
      by_cases hsp : c = ' '
      · subst hsp
        rw [cnlGo_id fuel cs (noAdjWs_tail ha)]
      · rw [cnlGo_id fuel cs (noAdjWs_tail ha)]

theorem mem_of_mem_dropWhile {p : Char → Bool} {l : List Char} {a : Char}
    (h : a ∈ l.dropWhile p) : a ∈ l :=
  (List.dropWhile_sublist p).subset h

theorem bulletPctMatch_none {l : List Char}
    (h1 : Char.ofNat 0x2022 ∉ l) (h2 : Char.ofNat 0x25cf ∉ l) :
    bulletPctMatch l = none := by
  unfold bulletPctMatch
  have hcond : ¬((l.dropWhile isPySpace).head? = some (Char.ofNat 0x2022) ∨
      (l.dropWhile isPySpace).head? = some (Char.ofNat 0x25cf)) := by
    rintro (hh | hh)
    · exact h1 (mem_of_mem_dropWhile (mem_of_head? hh))
    · exact h2 (mem_of_mem_dropWhile (mem_of_head? hh))
  simp only [decide_eq_true_eq]
  rw [if_neg (by simpa using hcond)]

theorem bulletPctFixGo_id : ∀ (fuel : Nat) (l : List Char) (b : Bool),
    Char.ofNat 0x2022 ∉ l → Char.ofNat 0x25cf ∉ l →
    bulletPctFixGo fuel l b = l
  | 0, _, _, _, _ => rfl
  | _ + 1, [], _, _, _ => rfl
  | fuel + 1, c :: cs, b, h1, h2 => by
    have hm : bulletPctMatch (c :: cs) = none := bulletPctMatch_none h1 h2
    have hrec := bulletPctFixGo_id fuel cs (decide (c = '\n'))
      (fun hmem => h1 (List.mem_cons_of_mem c hmem))
      (fun hmem => h2 (List.mem_cons_of_mem c hmem))
    cases b with
    | true =>
      show (match bulletPctMatch (c :: cs) with
        | some (rest, nl) => Char.ofNat 0x2022 :: ' ' :: bulletPctFixGo fuel rest nl
        | none => c :: bulletPctFixGo fuel cs (decide (c = '\n'))) = c :: cs
      rw [hm]
      show c :: bulletPctFixGo fuel cs (decide (c = '\n')) = c :: cs
      rw [hrec]
    | false =>
      show c :: bulletPctFixGo fuel cs (decide (c = '\n')) = c :: cs
      rw [hrec]

theorem pctGlyphMatch_none {l : List Char} (h : '%' ∉ l) :
    pctGlyphMatch l = none := by
  unfold pctGlyphMatch
  have hcond : ¬((l.dropWhile isPySpace).head? = some '%') := fun hh =>
    h (mem_of_mem_dropWhile (mem_of_head? hh))
  rw [if_neg hcond]

theorem pctGlyphFixGo_id : ∀ (fuel : Nat) (l : List Char) (b : Bool),
    '%' ∉ l → pctGlyphFixGo fuel l b = l
  | 0, _, _, _ => rfl
  | _ + 1, [], _, _ => rfl
  | fuel + 1, c :: cs, b, h => by
    have hm : pctGlyphMatch (c :: cs) = none := pctGlyphMatch_none h
    have hrec := pctGlyphFixGo_id fuel cs (decide (c = '\n'))
      (fun hmem => h (List.mem_cons_of_mem c hmem))
    cases b with
    | true =>
      show (match pctGlyphMatch (c :: cs) with
        | some (rest, nl) => Char.ofNat 0x2022 :: ' ' :: pctGlyphFixGo fuel rest nl
        | none => c :: pctGlyphFixGo fuel cs (decide (c = '\n'))) = c :: cs
      rw [hm]
      show c :: pctGlyphFixGo fuel cs (decide (c = '\n')) = c :: cs
      rw [hrec]
    | false =>
      show c :: pctGlyphFixGo fuel cs (decide (c = '\n')) = c :: cs
      rw [hrec]

theorem startsWith_false_of_occursIn_false {pat l : List Char}
    (h : occursIn pat l = false) : startsWithL pat l = false := by
  cases l with
  | nil => exact h
  | cons c cs =>
    unfold occursIn at h
    exact (Bool.or_eq_false_iff.mp h).1

theorem occursIn_tail_false {pat : List Char} {c : Char} {cs : List Char}
    (h : occursIn pat (c :: cs) = false) : occursIn pat cs = false := by
  unfold occursIn at h
  exact (Bool.or_eq_false_iff.mp h).2

theorem reGlueGo_id (w1 w2 : List Char) : ∀ (fuel : Nat) (l : List Char),
    occursIn w1 l = false → reGlueGo w1 w2 fuel l = l
  | 0, _, _ => rfl
  | _ + 1, [], _ => rfl
  | fuel + 1, c :: cs, h => by
    have h1 : startsWithL w1 (c :: cs) = false :=
      startsWith_false_of_occursIn_false h
    simp only [reGlueGo, h1, Bool.false_eq_true, if_false]
    rw [reGlueGo_id w1 w2 fuel cs (occursIn_tail_false h)]

theorem headerSplitGo_id (hd : List Char) : ∀ (fuel : Nat) (l : List Char),
    occursIn hd l = false → headerSplitGo hd fuel l = l
  | 0, _, _ => rfl
  | _ + 1, [], _ => rfl
  | fuel + 1, c :: cs, h => by
    have h1 : startsWithL hd cs = false :=
      startsWith_false_of_occursIn_false (occursIn_tail_false h)
    have hcond : (decide (c ≠ '\n') && startsWithL hd cs) = false := by
      simp [h1]
    simp only [headerSplitGo, hcond, Bool.false_eq_true, if_false]
    rw [headerSplitGo_id hd fuel cs (occursIn_tail_false h)]

theorem inlineBulletBreak_id (b : Char) : ∀ (l : List Char), b ∉ l →
    inlineBulletBreak b l = l
  | [], _ => rfl
  | [_], _ => rfl
  | c :: d :: cs, h => by
    have hd : ¬(d = b) := fun he => h (by simp [he])
    have hcond : (decide (c ≠ '\n') && decide (d = b)) = false := by simp [hd]
    simp only [inlineBulletBreak, hcond, Bool.false_eq_true, if_false]
    rw [inlineBulletBreak_id b (d :: cs) (fun hm => h (List.mem_cons_of_mem c hm))]

theorem dropWhile_eq_self_of_headNot {l : List Char}
    (h : headNotWs l = true) : l.dropWhile isPySpace = l := by
  cases l with
  | nil => rfl
  | cons c cs =>
    unfold headNotWs at h
    rw [Bool.not_eq_true'] at h
    exact List.dropWhile_cons_of_neg (by simp [h])

theorem stripBoth_id (l : List Char) (hh : headNotWs l = true)
    (hl : lastNotWs l = true) : stripBoth l = l := by
  unfold stripBoth dropTrailing
  rw [dropWhile_eq_self_of_headNot hh]
  rw [dropWhile_eq_self_of_headNot hl]
  exact List.reverse_reverse l

theorem startsWithL_of_append {p q x : List Char}
    (h : startsWithL (p ++ q) x = true) : startsWithL p x = true := by
  induction p generalizing x with
  | nil => rfl
  | cons p1 ps ih =>
    cases x with
    | nil => exact absurd h (by simp [startsWithL])
    | cons c cs =>
      have h' : (decide (p1 = c) && startsWithL (ps ++ q) cs) = true := h
      rw [Bool.and_eq_true] at h'
      obtain ⟨he, hrest⟩ := h'
      show (decide (p1 = c) && startsWithL ps cs) = true
      rw [he, ih hrest]
      rfl

theorem occursIn_append_false (p q l : List Char)
    (h : occursIn p l = false) : occursIn (p ++ q) l = false := by
  induction l with
  | nil =>
    cases hs : startsWithL (p ++ q) [] with
    | false => exact hs
    | true =>
      have := startsWithL_of_append hs
      rw [show occursIn p [] = startsWithL p [] from rfl, this] at h
      exact absurd h (by simp)
  | cons c cs ih =>
    unfold occursIn
    rcases Bool.or_eq_false_iff.mp h with ⟨-, -⟩
    have h1 : startsWithL p (c :: cs) = false :=
      startsWith_false_of_occursIn_false h
    have h2 : occursIn p cs = false := occursIn_tail_false h
    cases hs : startsWithL (p ++ q) (c :: cs) with
    | true =>
      have := startsWithL_of_append hs
      rw [this] at h1
      exact absurd h1 (by simp)
    | false =>
      rw [ih h2]
      rfl

theorem cleanList_id (l : List Char) (h : cleanInert l = true) :
    cleanList l = l := by
  simp only [cleanInert, Bool.and_eq_true, Bool.not_eq_true'] at h
  obtain ⟨⟨⟨⟨⟨⟨⟨⟨⟨hall, hadj⟩, hhead⟩, hlast⟩, hedu⟩, htech⟩, hprof⟩,
    hproj⟩, hlead⟩, hcert⟩ := h
  have hmem : ∀ c ∈ l, inertChar c = true := List.all_eq_true.mp hall
  have hchar : ∀ c ∈ l, isGlyph c = false ∧ ¬(c = 'â') ∧ ¬(c = '%') ∧
      ¬(c = Char.ofNat 0x2022) ∧ ¬(c = Char.ofNat 0x25cf) ∧ ¬(c = '\t') := by
    intro c hc
    have h2 := hmem c hc
    simp only [inertChar, Bool.and_eq_true, Bool.not_eq_true',
      decide_eq_false_iff_not] at h2
    exact ⟨h2.1.1.1.1.1, h2.1.1.1.1.2, h2.1.1.1.2, h2.1.1.2, h2.1.2, h2.2⟩
  have hGl : ∀ c ∈ l, isGlyph c = false := fun c hc => (hchar c hc).1
  have hA : 'â' ∉ l := fun hm => (hchar _ hm).2.1 rfl
  have hpct : '%' ∉ l := fun hm => (hchar _ hm).2.2.1 rfl
  have hBul : Char.ofNat 0x2022 ∉ l := fun hm => (hchar _ hm).2.2.2.1 rfl
  have hCirc : Char.ofNat 0x25cf ∉ l := fun hm => (hchar _ hm).2.2.2.2.1 rfl
  have hTab : '\t' ∉ l := fun hm => (hchar _ hm).2.2.2.2.2 rfl
  have hTS : occursIn "TECHNICAL SKILLS".data l = false := by
    have he : "TECHNICAL SKILLS".data = "TECHNICAL".data ++ (' ' :: "SKILLS".data) := by
      decide
    rw [he]
    exact occursIn_append_false _ _ _ htech
  have hPE : occursIn "PROFESSIONAL EXPERIENCES".data l = false := by
    have he : "PROFESSIONAL EXPERIENCES".data
        = "PROFESSIONAL".data ++ (' ' :: "EXPERIENCES".data) := by decide
    rw [he]
    exact occursIn_append_false _ _ _ hprof
  have hTP : occursIn "TECHNICAL PROJECTS".data l = false := by
    have he : "TECHNICAL PROJECTS".data
        = "TECHNICAL".data ++ (' ' :: "PROJECTS".data) := by decide
    rw [he]
    exact occursIn_append_false _ _ _ htech
  simp only [cleanList, cleanHeadersList, List.foldl_cons, List.foldl_nil]
  rw [removePctGlyph_id l hGl, filter_glyph_id l hGl,
    removePctWsGlyphGo_id _ l hpct, removeGlyphWsPctGo_id _ l hGl,
    replace3_id _ _ _ _ l hA, replace3_id _ _ _ _ l hA,
    replace3_id _ _ _ _ l hA, replace3_id _ _ _ _ l hA,
    replace2_id _ _ _ l hA, cspGo_id _ l hTab hadj, cnlGo_id _ l hadj,
    bulletPctFixGo_id _ l true hBul hCirc, pctGlyphFixGo_id _ l true hpct,
    reGlueGo_id _ _ _ l hprof, reGlueGo_id _ _ _ l htech,
    headerSplitGo_id _ _ l hedu, headerSplitGo_id _ _ l hTS,
    headerSplitGo_id _ _ l hPE, headerSplitGo_id _ _ l hTP,
    headerSplitGo_id _ _ l hproj, headerSplitGo_id _ _ l hlead,
    headerSplitGo_id _ _ l hcert, inlineBulletBreak_id _ l hBul,
    inlineBulletBreak_id _ l hCirc, stripBoth_id l hhead hlast]

/-- Free of the targeted corrupt-glyph sequences: none of the corrupt
glyphs `ÏïĪīÎîØø` and none of the mojibake sequences (which all start
with `â`) can occur. -/
def targetedGlyphFree (s : String) : Bool :=
  s.data.all (fun c => !isGlyph c && !(c = 'â'))

/-- C2 counterexample: the input `"a \n \n b"` is free of the targeted
corrupt-glyph sequences, yet a second pass of the Artifact Cleaner
changes the text again (`"a \n \n b"` → `"a\n\nb"` → `"a\nb"`): the
whitespace-collapsing substitution is not idempotent when spaces and
newlines interleave. -/
theorem C2_counterexample_second_pass :
    targetedGlyphFree "a \n \n b" = true ∧
    clean_encoding_artifacts "a \n \n b" = "a\n\nb" ∧
    clean_encoding_artifacts (clean_encoding_artifacts "a \n \n b") = "a\nb" ∧
    clean_encoding_artifacts (clean_encoding_artifacts "a \n \n b")
      ≠ clean_encoding_artifacts "a \n \n b" :=
  ⟨by decide, by decide, by decide, by decide⟩

/-- C2 amended: the Artifact Cleaner is idempotent on texts that are free
of the targeted corrupt-glyph sequences AND already in cleaned form: no
`%`, bullet glyph, tab or section-header keyword, no two adjacent
whitespace characters and no leading/trailing whitespace.  On such texts
it is the identity, so a second pass changes nothing.  (On merely
glyph-free text idempotence fails, see the counterexample.) -/
theorem C2_amended_cleaner_idempotent_on_inert (s : String)
    (h : cleanInert s.data = true) :
    clean_encoding_artifacts s = s ∧
    clean_encoding_artifacts (clean_encoding_artifacts s)
      = clean_encoding_artifacts s := by
  obtain ⟨d⟩ := s
  have h1 : clean_encoding_artifacts ⟨d⟩ = ⟨d⟩ :=
    congrArg String.mk (cleanList_id d h)
  refine ⟨h1, ?_⟩
  rw [h1]
  exact h1

/-- C2 witness: the amended theorem applied to a concrete cleaned text. -/
theorem C2_witness :
    clean_encoding_artifacts "hello world\nbye now" = "hello world\nbye now" :=
  (C2_amended_cleaner_idempotent_on_inert "hello world\nbye now" (by decide)).1

-- ------------------------------------------------------------------
-- bullet counting (`count_bullet_points`, source lines 236-240) and the
-- tail of `generate_optimized_resume` (source lines 794-838)
-- ------------------------------------------------------------------

/-- Matcher for one `re.findall(r'^\s*•\s+', text, re.MULTILINE)` match
at a line-start position: whitespace run, `•`, then a non-empty
whitespace run; returns the remainder and whether the last consumed
character was a newline. -/
def bulletCountMatch (l : List Char) : Option (List Char × Bool) :=
  let r1 := l.dropWhile isPySpace
  if r1.head? = some (Char.ofNat 0x2022) then
    let r2 := r1.tail
    if (r2.takeWhile isPySpace).isEmpty then none
    else some (r2.dropWhile isPySpace,
      decide ((r2.takeWhile isPySpace).getLast? = some '\n'))
  else none

/-- Scanner counting the non-overlapping matches (fuel-based; every step
consumes at least one character). -/
def countBulletsGo : Nat → List Char → Bool → Nat
  | 0, _, _ => 0
  | _ + 1, [], _ => 0
  | fuel + 1, c :: cs, false => countBulletsGo fuel cs (decide (c = '\n'))
  | fuel + 1, c :: cs, true =>
    match bulletCountMatch (c :: cs) with
    | some (rest, nl) => 1 + countBulletsGo fuel rest nl
    | none => countBulletsGo fuel cs (decide (c = '\n'))

/-- Embedding of `count_bullet_points`. -/
def count_bullet_points (s : String) : Nat :=
  countBulletsGo s.data.length s.data true

/-- The result record of the modelled tail of
`generate_optimized_resume`: the cleaned text that is returned as
`optimizedResume`, and the two console-only warning conditions. -/
structure GenerateTail where
  optimizedResume : String
  lengthWarning : Bool
  bulletWarning : Bool
deriving DecidableEq

/-- The tail of `generate_optimized_resume` after the edit capability
has produced a plain-text result `aiText` (source lines 794-838): the
text is cleaned with `clean_encoding_artifacts`, the length check
`len(optimized_text) < len(original_resume_text) * 0.8` and the bullet
comparison only print console warnings, and the cleaned text itself is
returned.  The float comparison `len < len * 0.8` is modelled exactly as
the integer comparison `5 * len < 4 * len` (the two disagree only within
one ulp of the float product, which no concrete input below
approaches). -/
def generate_optimized_tail (originalResumeText aiText : String) : GenerateTail :=
  let cleaned := clean_encoding_artifacts aiText
  ⟨cleaned,
   decide (5 * cleaned.length < 4 * originalResumeText.length),
   decide (count_bullet_points cleaned < count_bullet_points originalResumeText)⟩

/-- Modelled from the spec: the "non-blank line count" used by the
claimed fidelity check (the code has no such count; it compares
character lengths).  A line is non-blank if stripping whitespace leaves
it non-empty. -/
def specNonBlankLineCount (s : String) : Nat :=
  ((splitNl s.data).filter (fun l => !(stripBoth l).isEmpty)).length

/-- The 40-line original of the C1 counterexample (40 non-blank lines). -/
def c1Original : String := ⟨joinNl (List.replicate 40 ['x'])⟩

/-- The 25-line edit result of the C1 counterexample (25 non-blank
lines; 25 < 0.8 × 40, so the claimed fallback should trigger). -/
def c1Edited : String := ⟨joinNl (List.replicate 25 ['y'])⟩

set_option maxHeartbeats 4000000 in
/-- C1 counterexample: with 40 original and 25 edited non-blank lines
the claim's premise holds (25 < 0.8·40), but no fallback to the original
occurs: the returned `optimizedResume` is the cleaned edited text, not
the cleaned original. -/
theorem C1_counterexample_no_fallback :
    specNonBlankLineCount c1Original = 40 ∧
    specNonBlankLineCount c1Edited = 25 ∧
    5 * specNonBlankLineCount c1Edited < 4 * specNonBlankLineCount c1Original ∧
    (generate_optimized_tail c1Original c1Edited).optimizedResume
      = clean_encoding_artifacts c1Edited ∧
    (generate_optimized_tail c1Original c1Edited).optimizedResume
      ≠ clean_encoding_artifacts c1Original :=
  ⟨by decide, by decide, by decide, rfl, by decide⟩

/-- C1 amended: the reconstruction tail compares character lengths (not
non-blank line counts) against the 80% threshold, and the comparison
only drives a console warning: the returned `optimizedResume` is always
the cleaned edit result, independent of the original text — the
cleaned-but-unedited original is never substituted and no warning field
reaches the caller. -/
theorem C1_amended_warning_only (original aiText : String) :
    (generate_optimized_tail original aiText).optimizedResume
      = clean_encoding_artifacts aiText ∧
    (∀ other : String,
      (generate_optimized_tail original aiText).optimizedResume
        = (generate_optimized_tail other aiText).optimizedResume) ∧
    (generate_optimized_tail original aiText).lengthWarning
      = decide (5 * (clean_encoding_artifacts aiText).length
          < 4 * original.length) :=
  ⟨rfl, fun _ => rfl, rfl⟩

-- ------------------------------------------------------------------
-- Text Extraction Pipeline (`extract_text_from_pdf`, source lines
-- 132-201)
-- ------------------------------------------------------------------

/-- The formatting record of the extraction result. -/
structure FormattingInfo where
  sections : List SectionMarker
  hasDetectedFormatting : Bool
  bulletCount : Nat
deriving DecidableEq

/-- The extraction result. -/
structure ExtractResult where
  text : String
  formatting : FormattingInfo
deriving DecidableEq

/-- Page texts concatenated with a trailing newline each
(`extracted_text += page_text + "\n"`). -/
def pagesConcat (pages : List String) : List Char :=
  (pages.map (fun p => p.data ++ ['\n'])).flatten

/-- Embedding of `extract_text_with_ocr`: at most 5 pages, concatenated and then
bullet-normalized.  The OCR capability itself (pdf2image + pytesseract)
is modelled as the list of page texts it returns. -/
def extract_text_with_ocr (pages : List String) : String :=
  normalize_bullet_points ⟨pagesConcat (pages.take 5)⟩

/-- Embedding of `extract_text_from_pdf`.  The primary-extraction capability is
modelled as `Option (List String)` (`none` = PyPDF2 raises, `some` =
the per-page texts, empty pages skipped by the `if page_text:` guard),
the OCR capability likewise (`none` = it raises).  The result `none`
models an exception reaching the caller: that happens exactly when OCR
raises while it is needed, because an OCR failure inside the `try` block
lands in the `except` handler, which calls OCR again (source line 180)
and lets the second exception propagate.  The quirk that
`hasDetectedFormatting` is not recomputed after adopting the OCR text
(source lines 164-167) is preserved. -/
def extract_text_from_pdf (primary : Option (List String))
    (ocr : Option (List String)) : Option ExtractResult :=
  match primary with
  | some pages =>
    let extracted := normalize_bullet_points
      ⟨pagesConcat (pages.filter (fun p => !p.isEmpty))⟩
    let secs := detect_resume_sections extracted
    let hasFmt := !secs.isEmpty
    if (stripBoth extracted.data).length < 50 then
      match ocr with
      | some ocrPages =>
        let otext := extract_text_with_ocr ocrPages
        if extracted.length < otext.length then
          some ⟨otext, ⟨detect_resume_sections otext, hasFmt,
            count_bullet_points otext⟩⟩
        else some ⟨extracted, ⟨secs, hasFmt, count_bullet_points extracted⟩⟩
      | none => none
    else some ⟨extracted, ⟨secs, hasFmt, count_bullet_points extracted⟩⟩
  | none =>
    match ocr with
    | some ocrPages =>
      some ⟨extract_text_with_ocr ocrPages,
        ⟨[], false, count_bullet_points (extract_text_with_ocr ocrPages)⟩⟩
    | none => none

/-- Modelled from the spec: "fewer than 50 non-whitespace characters" —
the count of non-whitespace characters of a text (the code instead takes
`len(text.strip())`, which counts interior whitespace). -/
def specNonWsCount (s : String) : Nat :=
  (s.data.filter (fun c => !isPySpace c)).length

/-- The primary page of the C6 counterexample: two letters separated by
60 interior spaces (2 non-whitespace characters, but 62 characters after
stripping). -/
def c6Page : String := ⟨'a' :: (List.replicate 60 ' ' ++ ['b'])⟩

/-- A long OCR page for the C6 counterexample. -/
def c6Ocr : String := ⟨List.replicate 100 'z'⟩

set_option maxHeartbeats 4000000 in
/-- C6 counterexample: the primary text has only 2 non-whitespace
characters (fewer than 50), and a strictly longer OCR text is available,
so the claim says the OCR fallback is invoked and the longer OCR text
adopted — but `len(extracted_text.strip())` is 62 (interior whitespace
counts), so the code skips the fallback and returns the short primary
text. -/
theorem C6_counterexample_interior_whitespace :
    specNonWsCount ⟨'a' :: (List.replicate 60 ' ' ++ ['b', '\n'])⟩ = 2 ∧
    (extract_text_from_pdf (some [c6Page]) (some [c6Ocr])).map (fun r => r.text)
      = some ⟨'a' :: (List.replicate 60 ' ' ++ ['b', '\n'])⟩ ∧
    (extract_text_with_ocr [c6Ocr]).length = 101 ∧
    (extract_text_from_pdf (some [c6Page]) (some [c6Ocr])).map (fun r => r.text)
      ≠ some (extract_text_with_ocr [c6Ocr]) :=
  ⟨by decide, by decide, by decide, by decide⟩

/-- C6 amended: the fallback triggers when the length of the
whitespace-STRIPPED primary text (interior whitespace included) is below
50; on fallback the strictly longer of primary and OCR text is adopted;
when primary extraction raises, the OCR text is adopted with an empty
section list; when both capabilities yield nothing the caller receives
an empty-text result with empty sections rather than an exception; and
no exception reaches the caller as long as the OCR capability itself
does not raise. -/
theorem C6_amended_extraction :
    (∀ (pages ocrPages : List String),
      50 ≤ (stripBoth (normalize_bullet_points
          ⟨pagesConcat (pages.filter (fun p => !p.isEmpty))⟩).data).length →
        (extract_text_from_pdf (some pages) (some ocrPages)).map (fun r => r.text)
          = some (normalize_bullet_points
              ⟨pagesConcat (pages.filter (fun p => !p.isEmpty))⟩)) ∧
    (∀ (pages ocrPages : List String),
      (stripBoth (normalize_bullet_points
          ⟨pagesConcat (pages.filter (fun p => !p.isEmpty))⟩).data).length < 50 →
        (extract_text_from_pdf (some pages) (some ocrPages)).map (fun r => r.text)
          = some (if (normalize_bullet_points
                ⟨pagesConcat (pages.filter (fun p => !p.isEmpty))⟩).length
              < (extract_text_with_ocr ocrPages).length
            then extract_text_with_ocr ocrPages
            else normalize_bullet_points
              ⟨pagesConcat (pages.filter (fun p => !p.isEmpty))⟩)) ∧
    (∀ ocrPages : List String,
      (extract_text_from_pdf none (some ocrPages)).map
          (fun r => (r.text, r.formatting.sections))
        = some (extract_text_with_ocr ocrPages, [])) ∧
    extract_text_from_pdf (some []) (some []) = some ⟨"", ⟨[], false, 0⟩⟩ ∧
    (∀ (primary : Option (List String)) (ocrPages : List String),
      extract_text_from_pdf primary (some ocrPages) ≠ none) := by
  refine ⟨?_, ?_, ?_, by decide, ?_⟩
  · intro pages ocrPages h
    simp only [extract_text_from_pdf]
    rw [if_neg (Nat.not_lt.mpr h)]
    rfl
  · intro pages ocrPages h
    simp only [extract_text_from_pdf]
    rw [if_pos h]
    split
    · rfl
    · rfl
  · intro ocrPages
    rfl
  · intro primary ocrPages
    cases primary with
    | none => simp [extract_text_from_pdf]
    | some pages =>
      simp only [extract_text_from_pdf]
      split
      · split
        · simp
        · simp
      · simp

/-- C6 witness: the amended theorem applied at concrete inputs — a long
primary text (no fallback) and a short one with a longer OCR text (OCR
adopted). -/
theorem C6_witness :
    (extract_text_from_pdf (some [⟨List.replicate 60 'q'⟩]) (some [])).map
        (fun r => r.text)
      = some (normalize_bullet_points ⟨pagesConcat
          ([(⟨List.replicate 60 'q'⟩ : String)].filter (fun p => !p.isEmpty))⟩) ∧
    (extract_text_from_pdf (some ["hi"]) (some ["world"])).map (fun r => r.text)
      = some (if (normalize_bullet_points
            ⟨pagesConcat (["hi"].filter (fun p => !p.isEmpty))⟩).length
          < (extract_text_with_ocr ["world"]).length
        then extract_text_with_ocr ["world"]
        else normalize_bullet_points
          ⟨pagesConcat (["hi"].filter (fun p => !p.isEmpty))⟩) :=
  ⟨C6_amended_extraction.1 [⟨List.replicate 60 'q'⟩] [] (by decide),
   C6_amended_extraction.2.1 ["hi"] ["world"] (by decide)⟩

-- ------------------------------------------------------------------
-- bullets per section (`count_bullets_per_section`, source lines
-- 386-408)
-- ------------------------------------------------------------------

/-- Per-line canonical bullet test `re.match(r'^\s*•\s+', line)`. -/
def isBulletLine (l : List Char) : Bool :=
  decide ((l.dropWhile isPySpace).head? = some (Char.ofNat 0x2022)) &&
    headIsWs (l.dropWhile isPySpace).tail

/-- Bullet count of the slice `lines[a:b]`. -/
def sectionSliceCount (lines : List (List Char)) (a b : Nat) : Nat :=
  (((lines.drop a).take (b - a)).filter isBulletLine).length

/-- Python dict assignment `d[k] = v`: overwrite in place if the key
exists (keeping its position), else append. -/
def dictInsert (d : List (String × Nat)) (k : String) (v : Nat) :
    List (String × Nat) :=
  if d.any (fun kv => kv.1 = k) then
    d.map (fun kv => if kv.1 = k then (k, v) else kv)
  else d ++ [(k, v)]

/-- Python dict lookup. -/
def lookupDict (d : List (String × Nat)) (k : String) : Option Nat :=
  (d.find? (fun kv => kv.1 = k)).map (fun kv => kv.2)

/-- The end line of the current section: the next marker's line number,
or the document end. -/
def nextEnd (lines : List (List Char)) : List SectionMarker → Nat
  | s2 :: _ => s2.lineNumber
  | [] => lines.length

/-- The loop of `count_bullets_per_section`: for each marker, count the
bullets up to the next marker (or document end) and assign
`bullet_counts[section['type']] = count`. -/
def cbpsGo (lines : List (List Char)) :
    List SectionMarker → List (String × Nat) → List (String × Nat)
  | [], d => d
  | s :: rest, d =>
    cbpsGo lines rest (dictInsert d s.type
      (sectionSliceCount lines s.lineNumber (nextEnd lines rest)))

/-- Embedding of `count_bullets_per_section`. -/
def count_bullets_per_section (text : String) : List (String × Nat) :=
  cbpsGo (splitNl text.data) (detect_resume_sections text) []

/-- The per-marker `(type, bulletCount)` pairs in marker order, without
the dict keying — the reference against which the dict result is
compared. -/
def scGo (lines : List (List Char)) : List SectionMarker → List (String × Nat)
  | [] => []
  | s :: rest =>
    (s.type, sectionSliceCount lines s.lineNumber (nextEnd lines rest))
      :: scGo lines rest

/-- All `(type, bulletCount)` pairs of a text, in marker order. -/
def sectionCounts (text : String) : List (String × Nat) :=
  scGo (splitNl text.data) (detect_resume_sections text)

theorem lookupDict_map_ne (d : List (String × Nat)) (k : String) (v : Nat)
    (t : String) (h : ¬(t = k)) :
    lookupDict (d.map (fun kv => if kv.1 = k then (k, v) else kv)) t
      = lookupDict d t := by
  induction d with
  | nil => rfl
  | cons a d' ih =>
    by_cases hak : a.1 = k
    · simp only [List.map_cons, if_pos hak, lookupDict]
      rw [List.find?_cons_of_neg _ (by simp; exact Ne.symm h),
        List.find?_cons_of_neg _ (by simp [hak]; exact Ne.symm h)]
      exact ih
    · simp only [List.map_cons, if_neg hak, lookupDict]
      by_cases hat : a.1 = t
      · rw [List.find?_cons_of_pos _ (by simp [hat]),
          List.find?_cons_of_pos _ (by simp [hat])]
      · rw [List.find?_cons_of_neg _ (by simp [hat]),
          List.find?_cons_of_neg _ (by simp [hat])]
        exact ih

theorem lookupDict_map_overwrite (d : List (String × Nat)) (k : String) (v : Nat)
    (hany : d.any (fun kv => kv.1 = k) = true) :
    lookupDict (d.map (fun kv => if kv.1 = k then (k, v) else kv)) k = some v := by
  induction d with
  | nil => exact absurd hany (by simp)
  | cons a d' ih =>
    by_cases hak : a.1 = k
    · simp only [List.map_cons, if_pos hak, lookupDict]
      rw [List.find?_cons_of_pos _ (by simp)]
      rfl
    · have hany2 : d'.any (fun kv => kv.1 = k) = true := by
        simp only [List.any_cons, Bool.or_eq_true] at hany
        rcases hany with h1 | h1
        · exact absurd (of_decide_eq_true h1) hak
        · exact h1
      simp only [List.map_cons, if_neg hak, lookupDict]
      rw [List.find?_cons_of_neg _ (by simp [hak])]
      exact ih hany2

theorem lookupDict_append_new (d : List (String × Nat)) (k : String) (v : Nat)
    (t : String) :
    lookupDict (d ++ [(k, v)]) t
      = match lookupDict d t with
        | some w => some w
        | none => if t = k then some v else none := by
  induction d with
  | nil =>
    show lookupDict [(k, v)] t = if t = k then some v else none
    by_cases htk : t = k
    · subst htk
      unfold lookupDict
      rw [List.find?_cons_of_pos _ (by simp), if_pos rfl]
      rfl
    · unfold lookupDict
      rw [List.find?_cons_of_neg _ (by simp; exact Ne.symm htk), if_neg htk]
      rfl
  | cons a d' ih =>
    by_cases hat : a.1 = t
    · simp only [List.cons_append, lookupDict]
      rw [List.find?_cons_of_pos _ (by simp [hat]),
        List.find?_cons_of_pos _ (by simp [hat])]
      rfl
    · simp only [List.cons_append, lookupDict]
      rw [List.find?_cons_of_neg _ (by simp [hat]),
        List.find?_cons_of_neg _ (by simp [hat])]
      exact ih

theorem lookupDict_insert (d : List (String × Nat)) (k : String) (v : Nat)
    (t : String) :
    lookupDict (dictInsert d k v) t
      = if t = k then some v else lookupDict d t := by
  unfold dictInsert
  by_cases hany : d.any (fun kv => kv.1 = k) = true
  · rw [if_pos hany]
    by_cases htk : t = k
    · subst htk
      rw [if_pos rfl]
      exact lookupDict_map_overwrite d t v hany
    · rw [if_neg htk]
      exact lookupDict_map_ne d k v t htk
  · rw [if_neg hany, lookupDict_append_new d k v t]
    by_cases htk : t = k
    · subst htk
      have hnone : lookupDict d t = none := by
        cases hf : d.find? (fun kv => kv.1 = t) with
        | none => simp [lookupDict, hf]
        | some kv =>
          exfalso
          apply hany
          have hp := List.find?_some hf
          exact List.any_eq_true.mpr ⟨kv, List.mem_of_find?_eq_some hf, hp⟩
      rw [hnone, if_pos rfl]
    · rw [if_neg htk]
      cases hl : lookupDict d t with
      | none => simp [htk]
      | some w => simp [htk]

theorem find?_append_cases (l1 l2 : List (String × Nat))
    (p : String × Nat → Bool) :
    (l1 ++ l2).find? p
      = match l1.find? p with
        | some x => some x
        | none => l2.find? p := by
  induction l1 with
  | nil => rfl
  | cons a l1' ih =>
    by_cases hp : p a = true
    · rw [List.cons_append, List.find?_cons_of_pos _ hp,
        List.find?_cons_of_pos _ hp]
    · rw [List.cons_append, List.find?_cons_of_neg _ hp,
        List.find?_cons_of_neg _ hp]
      exact ih

theorem lookupDict_cbpsGo (lines : List (List Char)) :
    ∀ (ss : List SectionMarker) (d : List (String × Nat)) (t : String),
    lookupDict (cbpsGo lines ss d) t
      = match (scGo lines ss).reverse.find? (fun p => p.1 = t) with
        | some p => some p.2
        | none => lookupDict d t
  | [], d, t => rfl
  | s :: rest, d, t => by
    have hstep : cbpsGo lines (s :: rest) d
        = cbpsGo lines rest (dictInsert d s.type
            (sectionSliceCount lines s.lineNumber (nextEnd lines rest))) := rfl
    have hsc : (scGo lines (s :: rest)).reverse
        = (scGo lines rest).reverse
          ++ [(s.type, sectionSliceCount lines s.lineNumber (nextEnd lines rest))] := by
      simp [scGo]
    rw [hstep, lookupDict_cbpsGo lines rest _ t, hsc, find?_append_cases]
    cases hf : (scGo lines rest).reverse.find? (fun p => p.1 = t) with
    | some p => rfl
    | none =>
      rw [lookupDict_insert]
      by_cases hts : t = s.type
      · subst hts
        rw [if_pos rfl, List.find?_cons_of_pos _ (by simp)]
      · rw [if_neg hts, List.find?_cons_of_neg _ (by simp; exact Ne.symm hts)]
        rfl

theorem keys_dictInsert (d : List (String × Nat)) (k : String) (v : Nat) :
    (dictInsert d k v).map Prod.fst
      = if d.any (fun kv => kv.1 = k) = true then d.map Prod.fst
        else d.map Prod.fst ++ [k] := by
  unfold dictInsert
  by_cases hany : d.any (fun kv => kv.1 = k) = true
  · rw [if_pos hany, if_pos hany, List.map_map]
    apply List.map_congr_left
    intro a _
    show Prod.fst (if a.1 = k then (k, v) else a) = a.1
    by_cases hak : a.1 = k
    · rw [if_pos hak]
      exact hak.symm
    · rw [if_neg hak]
  · rw [if_neg hany, if_neg hany]
    simp

theorem mem_keys_dictInsert (d : List (String × Nat)) (k : String) (v : Nat)
    (t : String) :
    t ∈ (dictInsert d k v).map Prod.fst ↔ t ∈ d.map Prod.fst ∨ t = k := by
  rw [keys_dictInsert]
  by_cases hany : d.any (fun kv => kv.1 = k) = true
  · rw [if_pos hany]
    constructor
    · exact Or.inl
    · rintro (h | h)
      · exact h
      · subst h
        rcases List.any_eq_true.mp hany with ⟨kv, hkv, hk⟩
        exact List.mem_map.mpr ⟨kv, hkv, of_decide_eq_true hk⟩
  · rw [if_neg hany]
    simp

theorem nodup_keys_dictInsert (d : List (String × Nat)) (k : String) (v : Nat)
    (h : (d.map Prod.fst).Nodup) :
    ((dictInsert d k v).map Prod.fst).Nodup := by
  rw [keys_dictInsert]
  by_cases hany : d.any (fun kv => kv.1 = k) = true
  · rw [if_pos hany]
    exact h
  · rw [if_neg hany]
    have hk : k ∉ d.map Prod.fst := by
      intro hm
      apply hany
      rcases List.mem_map.mp hm with ⟨kv, hkv, he⟩
      exact List.any_eq_true.mpr ⟨kv, hkv, by simp [he]⟩
    rw [List.nodup_append]
    refine ⟨h, List.nodup_singleton k, ?_⟩
    intro a ha hb
    simp at hb
    subst hb
    exact hk ha

theorem cbpsGo_keys_mem (lines : List (List Char)) :
    ∀ (ss : List SectionMarker) (d : List (String × Nat)) (t : String),
    t ∈ (cbpsGo lines ss d).map Prod.fst ↔
      t ∈ d.map Prod.fst ∨ t ∈ ss.map (fun m => m.type)
  | [], d, t => by simp [cbpsGo]
  | s :: rest, d, t => by
    have hstep : cbpsGo lines (s :: rest) d
        = cbpsGo lines rest (dictInsert d s.type
            (sectionSliceCount lines s.lineNumber (nextEnd lines rest))) := rfl
    rw [hstep, cbpsGo_keys_mem lines rest _ t, mem_keys_dictInsert]
    simp only [List.map_cons, List.mem_cons]
    tauto

theorem cbpsGo_keys_nodup (lines : List (List Char)) :
    ∀ (ss : List SectionMarker) (d : List (String × Nat)),
    (d.map Prod.fst).Nodup → ((cbpsGo lines ss d).map Prod.fst).Nodup
  | [], _, h => h
  | s :: rest, d, h => by
    have hstep : cbpsGo lines (s :: rest) d
        = cbpsGo lines rest (dictInsert d s.type
            (sectionSliceCount lines s.lineNumber (nextEnd lines rest))) := rfl
    rw [hstep]
    exact cbpsGo_keys_nodup lines rest _ (nodup_keys_dictInsert _ _ _ h)

/-- C9: the bullets-per-section query keys its result by section type:
the looked-up count for a type is the count of the LAST detected section
of that type (the last matching entry of the in-order per-marker count
list), earlier same-type counts are discarded, the result has no
duplicate keys, and its key set is exactly the set of detected section
types.  For the text with two SKILLS sections the result is
`[("skills", 2)]` although the per-marker counts are `(skills,1),
(skills,2)`. -/
theorem C9_bullets_per_section_last_wins :
    (∀ (text : String) (t : String),
      lookupDict (count_bullets_per_section text) t
        = match (sectionCounts text).reverse.find? (fun p => p.1 = t) with
          | some p => some p.2
          | none => none) ∧
    (∀ text : String, ((count_bullets_per_section text).map Prod.fst).Nodup) ∧
    (∀ (text : String) (t : String),
      t ∈ (count_bullets_per_section text).map Prod.fst ↔
        t ∈ (detect_resume_sections text).map (fun m => m.type)) ∧
    count_bullets_per_section "SKILLS\n• a\nSKILLS\n• b\n• c"
      = [("skills", 2)] ∧
    sectionCounts "SKILLS\n• a\nSKILLS\n• b\n• c"
      = [("skills", 1), ("skills", 2)] := by
  refine ⟨?_, ?_, ?_, by decide, by decide⟩
  · intro text t
    unfold count_bullets_per_section sectionCounts
    rw [lookupDict_cbpsGo]
    cases hf : (scGo (splitNl text.data)
        (detect_resume_sections text)).reverse.find? (fun p => p.1 = t) with
    | some p => rfl
    | none => rfl
  · intro text
    exact cbpsGo_keys_nodup _ _ [] (by simp)
  · intro text t
    unfold count_bullets_per_section
    rw [cbpsGo_keys_mem]
    simp

end ResumePipeline
